import Mathlib

/-!
Verification of the litemapy schematic library against its specification.

The sources available under the repository are `litemapy/metadata.py`,
`litemapy/ticks.py` and the test suite.  The modules `litemapy/storage.py`
(the packed bit array and the discriminating dictionary) and
`litemapy/schematic.py` (block states, regions, the schematic aggregate and
the NBT codec) are not part of the sources; those components are modelled
from the specification, as indicated in the doc comment of each such
definition.
-/

set_option maxHeartbeats 1600000

namespace Litemapy

/-- All-ones bit mask of width `n`, that is `2 ^ n - 1`. -/
def lowMask (n : Nat) : Nat := 2 ^ n - 1

/-- Modelled from the spec: `litemapy.storage.LitematicaBitArray` is missing
from the sources.  Spec §4.1: cell `i` occupies the bit range
`[i*bits, i*bits+bits)` of a conceptual little-endian stream backed by
64-bit words; a cell may straddle a word boundary; reads mask `2^bits - 1`
after a logical right shift by the intra-word offset.  `wordsGet ws bits i`
reads cell `i` of width `bits` from the backing words `ws`. -/
def wordsGet (ws : List Nat) (bits i : Nat) : Nat :=
  let off := i * bits % 64
  let k := i * bits / 64
  if off + bits ≤ 64 then
    (ws.getD k 0 >>> off) &&& lowMask bits
  else
    ((ws.getD k 0 >>> off) ||| (ws.getD (k + 1) 0 <<< (64 - off))) &&& lowMask bits

/-- Modelled from the spec: `litemapy.storage.LitematicaBitArray` is missing
from the sources.  Spec §4.1: writes clear the target bits then OR in the
value; a straddling cell is split between the high bits of word `k` and the
low bits of word `k+1`.  `wordsSet ws bits i v` writes value `v` into cell
`i` of width `bits`. -/
def wordsSet (ws : List Nat) (bits i v : Nat) : List Nat :=
  let off := i * bits % 64
  let k := i * bits / 64
  let vm := v &&& lowMask bits
  if off + bits ≤ 64 then
    ws.set k ((ws.getD k 0 &&& (lowMask 64 ^^^ (lowMask bits <<< off))) ||| (vm <<< off))
  else
    let lo := 64 - off
    let ws1 := ws.set k ((ws.getD k 0 &&& lowMask off) ||| ((vm &&& lowMask lo) <<< off))
    ws1.set (k + 1)
      ((ws1.getD (k + 1) 0 &&& (lowMask 64 ^^^ lowMask (bits - lo))) ||| (vm >>> lo))

/-- Bit `n` of the conceptual packed bit stream held by the backing words. -/
def streamBit (ws : List Nat) (n : Nat) : Bool :=
  (ws.getD (n / 64) 0).testBit (n % 64)

/-- Every backing word fits in 64 bits. -/
def WordsWF (ws : List Nat) : Prop := ∀ w ∈ ws, w < 2 ^ 64

/-- Modelled from the spec: `litemapy.storage.LitematicaBitArray` is missing
from the sources.  Spec §3/§4.1: `N` cells of `bits` width each over a
backing array of 64-bit unsigned words; length and width immutable. -/
structure LitematicaBitArray where
  size : Nat
  nbits : Nat
  array : List Nat
  deriving Repr, DecidableEq

/-- Modelled from the spec: constructing with `(N, bits)` yields an all-zero
packed array; the backing vector has `⌈N*bits/64⌉` words. -/
def LitematicaBitArray.init (size nbits : Nat) : LitematicaBitArray :=
  ⟨size, nbits, List.replicate ((size * nbits + 63) / 64) 0⟩

/-- Unchecked cell read (the in-range path of `get`). -/
def LitematicaBitArray.getCell (a : LitematicaBitArray) (i : Nat) : Nat :=
  wordsGet a.array a.nbits i

/-- Unchecked cell write (the in-range path of `set`). -/
def LitematicaBitArray.setCell (a : LitematicaBitArray) (i v : Nat) :
    LitematicaBitArray :=
  { a with array := wordsSet a.array a.nbits i v }

/-- Modelled from the spec: `get(i)` reads cell `i` and fails
(`IndexOutOfRange`, here `none`) when `i ∉ [0, N)`. -/
def LitematicaBitArray.get (a : LitematicaBitArray) (i : Nat) : Option Nat :=
  if i < a.size then some (a.getCell i) else none

/-- Modelled from the spec: `set(i, v)` writes cell `i` and fails
(`IndexOutOfRange` / `ValueOutOfRange`, here `none`) when `i ∉ [0, N)` or
`v ∉ [0, 2^bits)`. -/
def LitematicaBitArray.set (a : LitematicaBitArray) (i v : Nat) :
    Option LitematicaBitArray :=
  if i < a.size ∧ v < 2 ^ a.nbits then some (a.setCell i v) else none

/-- Write the values into consecutive cells starting at cell `i`. -/
def LitematicaBitArray.writeFrom (a : LitematicaBitArray) (i : Nat) :
    List Nat → LitematicaBitArray
  | [] => a
  | v :: vs => (a.setCell i v).writeFrom (i + 1) vs

/-- Write `vs.length` values into cells `0, 1, …` in index order. -/
def LitematicaBitArray.writeSeq (a : LitematicaBitArray) (vs : List Nat) :
    LitematicaBitArray :=
  a.writeFrom 0 vs

/-- Well-formedness: words fit in 64 bits and the backing vector has room
for all cells. -/
def LitematicaBitArray.WF (a : LitematicaBitArray) : Prop :=
  WordsWF a.array ∧ a.size * a.nbits ≤ 64 * a.array.length

/-- Shallow model of an `nbtlib` tag tree (gzip and binary parsing are out
of scope per spec §1; the library yields a tagged tree).  A compound is an
association list in insertion order, as a Python dict preserves it. -/
inductive NBT where
  | int (n : Int)
  | long (n : Int)
  | str (s : String)
  | longArray (ws : List Nat)
  | intArray (xs : List Int)
  | list (xs : List NBT)
  | compound (entries : List (String × NBT))
  deriving Repr

/-- `nbt[k]` / `nbt.get(k)`: look a key up in a compound. -/
def NBT.lookup? : NBT → String → Option NBT
  | .compound es, k => es.lookup k
  | _, _ => none

/-- Read a string tag at a key. -/
def NBT.getStr? (t : NBT) (k : String) : Option String :=
  match t.lookup? k with
  | some (.str s) => some s
  | _ => none

/-- Read a numeric (Int or Long) tag at a key; Python reads are untyped. -/
def NBT.getNum? (t : NBT) (k : String) : Option Int :=
  match t.lookup? k with
  | some (.int n) => some n
  | some (.long n) => some n
  | _ => none

/-- Read a long-array tag at a key. -/
def NBT.getLongArray? (t : NBT) (k : String) : Option (List Nat) :=
  match t.lookup? k with
  | some (.longArray ws) => some ws
  | _ => none

/-- Read an int-array tag at a key. -/
def NBT.getIntArray? (t : NBT) (k : String) : Option (List Int) :=
  match t.lookup? k with
  | some (.intArray xs) => some xs
  | _ => none

/-- Read a list tag at a key. -/
def NBT.getList? (t : NBT) (k : String) : Option (List NBT) :=
  match t.lookup? k with
  | some (.list xs) => some xs
  | _ => none

/-- The keys of a compound, in order. -/
def NBT.keys : NBT → List String
  | .compound es => es.map Prod.fst
  | _ => []

/-- Python `tuple(tag)`: iterating an `nbtlib` Compound (a dict subclass)
yields its KEYS as strings; iterating a List tag yields its elements;
iterating an IntArray yields its integers. -/
def NBT.pyTuple : NBT → List NBT
  | .compound es => es.map (fun kv => NBT.str kv.1)
  | .list xs => xs
  | .intArray xs => xs.map NBT.int
  | .longArray ws => ws.map (fun w => NBT.long (Int.ofNat w))
  | _ => []

/-- `litemapy.ticks.PendingBlockTick` (source `ticks.py`). -/
structure PendingBlockTick where
  block : String
  priority : Int
  sub_tick : Int
  time : Int
  x : Int
  y : Int
  z : Int
  deriving Repr, DecidableEq

/-- `PendingBlockTick.from_nbt` (source `ticks.py`): reads the keys
`block`, `priority`, `sub_tick`, `time`, `x`, `y`, `z`. -/
def PendingBlockTick.from_nbt (nbt : NBT) : Option PendingBlockTick := do
  let block ← nbt.getStr? "block"
  let priority ← nbt.getNum? "priority"
  let sub_tick ← nbt.getNum? "sub_tick"
  let time ← nbt.getNum? "time"
  let x ← nbt.getNum? "x"
  let y ← nbt.getNum? "y"
  let z ← nbt.getNum? "z"
  pure ⟨block, priority, sub_tick, time, x, y, z⟩

/-- `PendingBlockTick.to_nbt` (source `ticks.py`): builds a compound with
exactly those keys, in the dict insertion order of the source. -/
def PendingBlockTick.to_nbt (t : PendingBlockTick) : NBT :=
  .compound [("block", .str t.block), ("priority", .int t.priority),
    ("sub_tick", .int t.sub_tick), ("time", .int t.time),
    ("x", .int t.x), ("y", .int t.y), ("z", .int t.z)]

/-- `litemapy.ticks.PendingFluidTick` (source `ticks.py`). -/
structure PendingFluidTick where
  fluid : String
  priority : Int
  sub_tick : Int
  time : Int
  x : Int
  y : Int
  z : Int
  deriving Repr, DecidableEq

/-- `PendingFluidTick.from_nbt` (source `ticks.py`). -/
def PendingFluidTick.from_nbt (nbt : NBT) : Option PendingFluidTick := do
  let fluid ← nbt.getStr? "fluid"
  let priority ← nbt.getNum? "priority"
  let sub_tick ← nbt.getNum? "sub_tick"
  let time ← nbt.getNum? "time"
  let x ← nbt.getNum? "x"
  let y ← nbt.getNum? "y"
  let z ← nbt.getNum? "z"
  pure ⟨fluid, priority, sub_tick, time, x, y, z⟩

/-- `PendingFluidTick.to_nbt` (source `ticks.py`). -/
def PendingFluidTick.to_nbt (t : PendingFluidTick) : NBT :=
  .compound [("fluid", .str t.fluid), ("priority", .int t.priority),
    ("sub_tick", .int t.sub_tick), ("time", .int t.time),
    ("x", .int t.x), ("y", .int t.y), ("z", .int t.z)]

/-- `litemapy.metadata.LitematicMetadata` (source `metadata.py`).  The two
`datetime` fields keep the raw millisecond value read from the tree
(`datetime` conversion is a thin external wrapper), everything else is as
declared in the source dataclass.  `enclosing_size` is the Python
`tuple(...)` of the `EnclosingSize` tag, kept as the list of iterated
values. -/
structure LitematicMetadata where
  name : String
  description : String
  author : String
  version : Int
  sub_version : Option Int
  minecraft_data_version : Int
  time_created_millis : Int
  time_modified_millis : Int
  region_count : Int
  total_volume : Int
  total_blocks : Int
  enclosing_size : List NBT
  preview_image_data : Option (List Int)
  deriving Repr

/-- `LitematicMetadata.from_nbt` (source `metadata.py` lines 82–110),
embedded faithfully, including which root tags the source actually reads:
`version=nbt["MinecraftDataVersion"]`,
`sub_version=nbt.get("Version", nbt.get("MinecraftDataVersion"))`,
`minecraft_data_version=nbt["MinecraftDataVersion"]`, and
`enclosing_size=tuple(meta_section["EnclosingSize"])`. -/
def LitematicMetadata.from_nbt (nbt : NBT) : Option LitematicMetadata := do
  let meta ← nbt.lookup? "Metadata"
  let name ← meta.getStr? "Name"
  let description ← meta.getStr? "Description"
  let author ← meta.getStr? "Author"
  let version ← nbt.getNum? "MinecraftDataVersion"
  let sub_version : Option Int :=
    match nbt.getNum? "Version" with
    | some v => some v
    | none => nbt.getNum? "MinecraftDataVersion"
  let minecraft_data_version ← nbt.getNum? "MinecraftDataVersion"
  let time_created ← meta.getNum? "TimeCreated"
  let time_modified ← meta.getNum? "TimeModified"
  let region_count ← meta.getNum? "RegionCount"
  let total_volume ← meta.getNum? "TotalVolume"
  let total_blocks ← meta.getNum? "TotalBlocks"
  let enclosing ← meta.lookup? "EnclosingSize"
  let preview : Option (List Int) := meta.getIntArray? "PreviewImageData"
  pure ⟨name, description, author, version, sub_version, minecraft_data_version,
    time_created, time_modified, region_count, total_volume, total_blocks,
    enclosing.pyTuple, preview⟩

/-- The NBT root used by the metadata test inputs below: litematica format
version 6, subversion 1, Minecraft data version 2975, and an
`EnclosingSize` compound `{x:1, y:2, z:3}`. -/
def metadataTestNBT : NBT :=
  .compound [
    ("Version", .int 6),
    ("SubVersion", .int 1),
    ("MinecraftDataVersion", .int 2975),
    ("Metadata", .compound [
      ("Name", .str "Test"),
      ("Author", .str "Author"),
      ("Description", .str "Desc"),
      ("TimeCreated", .long 1000),
      ("TimeModified", .long 2000),
      ("RegionCount", .int 1),
      ("TotalVolume", .int 6),
      ("TotalBlocks", .int 2),
      ("EnclosingSize", .compound [("x", .int 1), ("y", .int 2), ("z", .int 3)])]),
    ("Regions", .compound [])]

/-- Modelled from the spec: `BlockState` lives in the missing
`litemapy/schematic.py`.  Spec §3: an identifier plus a string-to-string
property mapping; an immutable value. -/
structure BlockState where
  id : String
  properties : List (String × String)
  deriving Repr, DecidableEq

/-- The reserved value `AIR = BlockState("minecraft:air")` (spec §3). -/
def AIR : BlockState := ⟨"minecraft:air", []⟩

/-- An integer triple used for region positions and sizes. -/
structure Vec3 where
  x : Int
  y : Int
  z : Int
  deriving Repr, DecidableEq

/-- Modelled from the spec: `Region` lives in the missing
`litemapy/schematic.py`.  Spec §3: origin, signed nonzero size, palette
(index 0 is AIR), packed block storage, and the entity/tile-entity/tick
lists. -/
structure Region where
  position : Vec3
  size : Vec3
  palette : List BlockState
  blocks : LitematicaBitArray
  entities : List NBT
  tile_entities : List NBT
  block_ticks : List PendingBlockTick
  fluid_ticks : List PendingFluidTick
  deriving Repr

/-- Axis lengths `(Lx, Ly, Lz) = (|dx|, |dy|, |dz|)`. -/
def Region.lenX (r : Region) : Nat := r.size.x.natAbs

/-- See `Region.lenX`. -/
def Region.lenY (r : Region) : Nat := r.size.y.natAbs

/-- See `Region.lenX`. -/
def Region.lenZ (r : Region) : Nat := r.size.z.natAbs

/-- Number of cells `|dx|·|dy|·|dz|`. -/
def Region.volume (r : Region) : Nat := r.lenX * r.lenY * r.lenZ

/-- Modelled from the spec, §4.3 coordinate methods: local bound
`[0, L-1]` when `dx > 0`, `[-(L-1), 0]` when `dx < 0`. -/
def Region.min_x (r : Region) : Int :=
  if 0 < r.size.x then 0 else -((r.lenX : Int) - 1)

/-- See `Region.min_x`. -/
def Region.max_x (r : Region) : Int :=
  if 0 < r.size.x then (r.lenX : Int) - 1 else 0

/-- See `Region.min_x`. -/
def Region.min_y (r : Region) : Int :=
  if 0 < r.size.y then 0 else -((r.lenY : Int) - 1)

/-- See `Region.min_x`. -/
def Region.max_y (r : Region) : Int :=
  if 0 < r.size.y then (r.lenY : Int) - 1 else 0

/-- See `Region.min_x`. -/
def Region.min_z (r : Region) : Int :=
  if 0 < r.size.z then 0 else -((r.lenZ : Int) - 1)

/-- See `Region.min_x`. -/
def Region.max_z (r : Region) : Int :=
  if 0 < r.size.z then (r.lenZ : Int) - 1 else 0

/-- Modelled from the spec, §4.3: schematic-space bound: if `dx > 0` then
`[position.x, position.x + dx - 1]`, if `dx < 0` then
`[position.x - (|dx|-1), position.x]`. -/
def Region.min_schem_x (r : Region) : Int :=
  if 0 < r.size.x then r.position.x else r.position.x - ((r.lenX : Int) - 1)

/-- See `Region.min_schem_x`. -/
def Region.max_schem_x (r : Region) : Int :=
  if 0 < r.size.x then r.position.x + r.size.x - 1 else r.position.x

/-- See `Region.min_schem_x`. -/
def Region.min_schem_y (r : Region) : Int :=
  if 0 < r.size.y then r.position.y else r.position.y - ((r.lenY : Int) - 1)

/-- See `Region.min_schem_x`. -/
def Region.max_schem_y (r : Region) : Int :=
  if 0 < r.size.y then r.position.y + r.size.y - 1 else r.position.y

/-- See `Region.min_schem_x`. -/
def Region.min_schem_z (r : Region) : Int :=
  if 0 < r.size.z then r.position.z else r.position.z - ((r.lenZ : Int) - 1)

/-- See `Region.min_schem_x`. -/
def Region.max_schem_z (r : Region) : Int :=
  if 0 < r.size.z then r.position.z + r.size.z - 1 else r.position.z

/-- Fuel-driven ceiling base-2 logarithm; with fuel at least `n` it equals
`Nat.clog 2 n` (see `clog2Fuel_eq`), and unlike `Nat.clog` it evaluates by
kernel reduction. -/
def clog2Fuel : Nat → Nat → Nat
  | 0, _ => 0
  | fuel + 1, n => if n ≤ 1 then 0 else clog2Fuel fuel ((n + 1) / 2) + 1

/-- Modelled from the spec, §4.2: `required_bit_width()` is
`max(2, ceil(log2(len)))`. -/
def requiredBits (n : Nat) : Nat := max 2 (clog2Fuel n n)

/-- Modelled from the spec, §4.3 linearization: local `(x, y, z)` maps to
`y·Lx·Lz + z·Lx + x`. -/
def Region.linearIndex (r : Region) (x y z : Nat) : Nat :=
  y * (r.lenX * r.lenZ) + z * r.lenX + x

/-- Modelled from the spec, §4.3 constructors: palette `[AIR]`, blocks all
zero at the initial width `max(2, ceil(log2 1)) = 2`. -/
def mkRegion (position size : Vec3) : Region :=
  { position := position, size := size, palette := [AIR],
    blocks := LitematicaBitArray.init
      (size.x.natAbs * size.y.natAbs * size.z.natAbs) (requiredBits 1),
    entities := [], tile_entities := [], block_ticks := [], fluid_ticks := [] }

/-- Index of a state in a palette, `none` when absent. -/
def paletteIdx : List BlockState → BlockState → Option Nat
  | [], _ => none
  | b :: p, s => if b = s then some 0 else (paletteIdx p s).map (· + 1)

/-- Index of a number in a list, `none` when absent (used by prune). -/
def natIdx : List Nat → Nat → Option Nat
  | [], _ => none
  | b :: p, s => if b = s then some 0 else (natIdx p s).map (· + 1)

/-- The raw palette index stored at local `(x, y, z)`. -/
def Region.getBlockIdx (r : Region) (x y z : Nat) : Nat :=
  r.blocks.getCell (r.linearIndex x y z)

/-- `region[x, y, z]`: the BlockState at the computed linear index. -/
def Region.getBlock (r : Region) (x y z : Nat) : BlockState :=
  r.palette.getD (r.getBlockIdx x y z) AIR

/-- All stored cell values in index order. -/
def LitematicaBitArray.cells (a : LitematicaBitArray) : List Nat :=
  (List.range a.size).map a.getCell

/-- Rebuild at a (new) width, copying every cell (spec §4.3 palette rebuild
on grow). -/
def LitematicaBitArray.resize (a : LitematicaBitArray) (newBits : Nat) :
    LitematicaBitArray :=
  (LitematicaBitArray.init a.size newBits).writeSeq a.cells

/-- Modelled from the spec, §4.3 indexed write: find or insert the state
in the palette; if inserting grew the palette past the current bit width,
rebuild the BitArray at the new width; then write the index to the cell. -/
def Region.setBlock (r : Region) (x y z : Nat) (s : BlockState) : Region :=
  match paletteIdx r.palette s with
  | some idx => { r with blocks := r.blocks.setCell (r.linearIndex x y z) idx }
  | none =>
    let newPalette := r.palette ++ [s]
    let newIdx := r.palette.length
    let newBits := requiredBits newPalette.length
    let blocks := if newBits ≤ r.blocks.nbits then r.blocks
      else r.blocks.resize newBits
    { r with palette := newPalette, blocks := blocks.setCell (r.linearIndex x y z) newIdx }

/-- The palette indices referenced by the cells, in cell order. -/
def Region.usedIndices (r : Region) : List Nat := r.blocks.cells

/-- The used palette indices other than 0 that prune keeps, in index
order. -/
def Region.pruneKeep (r : Region) : List Nat :=
  (List.range r.palette.length).filter
    (fun j => decide (j ≠ 0 ∧ j ∈ r.usedIndices))

/-- The pruned palette: index 0 (AIR) followed by the kept entries. -/
def Region.prunePalette (r : Region) : List BlockState :=
  r.palette.getD 0 AIR :: (r.pruneKeep).map (fun j => r.palette.getD j AIR)

/-- The prune index remap: AIR maps to 0, a kept entry to its new
position. -/
def Region.pruneRemap (r : Region) (j : Nat) : Nat :=
  if j = 0 then 0 else ((natIdx r.pruneKeep j).map (· + 1)).getD 0

/-- Modelled from the spec, §4.2/§4.3 prune: scan all cells, rebuild the
palette keeping index 0 (AIR) and only used entries, remap the cells
through the index remap (AIR maps to 0, a kept entry to its new position),
repacking at the pruned palette's required width. -/
def Region.prune (r : Region) : Region :=
  let newCells := r.usedIndices.map r.pruneRemap
  let newBlocks := (LitematicaBitArray.init r.blocks.size
    (requiredBits r.prunePalette.length)).writeSeq newCells
  { r with palette := r.prunePalette, blocks := newBlocks }

/-- Modelled from the spec, §4.3 `filter(fn)`: map every palette entry
through `fn` building a new palette that retains AIR at index 0 and merges
duplicates, rewrite every cell through the index remap, then prune. -/
def Region.filterStates (r : Region) (fn : BlockState → BlockState) : Region :=
  let step : List BlockState × List Nat → BlockState → List BlockState × List Nat :=
    fun acc e =>
      match paletteIdx acc.1 (fn e) with
      | some j => (acc.1, acc.2 ++ [j])
      | none => (acc.1 ++ [fn e], acc.2 ++ [acc.1.length])
  let pr := r.palette.foldl step ([AIR], [])
  let newCells := r.blocks.cells.map (fun c => pr.2.getD c 0)
  let newBlocks := (LitematicaBitArray.init r.blocks.size
    (requiredBits pr.1.length)).writeSeq newCells
  let r' := { r with palette := pr.1, blocks := newBlocks }
  r'.prune

/-- Modelled from the spec, §4.3: `replace(old, new)` is
`filter(s ↦ new if s == old else s)`. -/
def Region.replace (r : Region) (old new : BlockState) : Region :=
  r.filterStates (fun s => if s = old then new else s)

/-- One mutation of a region, for stating invariants over op sequences. -/
inductive RegionOp where
  | set (x y z : Nat) (s : BlockState)
  | replace (old new : BlockState)
  | filter (fn : BlockState → BlockState)
  | prune

/-- Apply one region mutation. -/
def Region.applyOp (r : Region) : RegionOp → Region
  | .set x y z s => r.setBlock x y z s
  | .replace o n => r.replace o n
  | .filter fn => r.filterStates fn
  | .prune => r.prune

/-- Apply a sequence of region mutations in order. -/
def Region.applyOps (r : Region) (ops : List RegionOp) : Region :=
  ops.foldl Region.applyOp r

/-- The concrete region of spec scenario S2:
`Region(-10, -10, -10, -10, -10, -10)`. -/
def regionS2 : Region := mkRegion ⟨-10, -10, -10⟩ ⟨-10, -10, -10⟩

/-- Modelled from the spec: `litemapy.storage.DiscriminatingDictionary` is
missing from the sources.  Spec §4.4: a keyed container parameterized by a
discriminator `(k, v) → (accept, reason)`. -/
structure DiscriminatingDictionary (K V : Type) where
  discriminator : K → V → Bool × String
  entries : List (K × V)

/-- Failure kinds of dictionary mutations: a `DiscriminationError(reason)`
or a Python `KeyError`. -/
inductive DictError where
  | discrimination (reason : String)
  | keyError
  deriving Repr, DecidableEq

/-- Association-list lookup (Python `dict` get by key). -/
def assocGet {K V : Type} [DecidableEq K] : List (K × V) → K → Option V
  | [], _ => none
  | (k', v) :: es, k => if k' = k then some v else assocGet es k

/-- Association-list store: replace in place when present, append when new
(Python `dict` insertion-order semantics). -/
def assocPut {K V : Type} [DecidableEq K] (es : List (K × V)) (k : K) (v : V) :
    List (K × V) :=
  if (assocGet es k).isSome then
    es.map (fun kv => if kv.1 = k then (k, v) else kv)
  else es ++ [(k, v)]

/-- Association-list delete of the first entry with the key. -/
def assocRemove {K V : Type} [DecidableEq K] : List (K × V) → K → List (K × V)
  | [], _ => []
  | (k', v) :: es, k => if k' = k then es else (k', v) :: assocRemove es k

/-- Modelled from the spec, §4.4: `insert` discriminates the pair first;
on rejection it fails with `DiscriminationError(reason)` and the contents
are unchanged. -/
def DiscriminatingDictionary.setItem {K V : Type} [DecidableEq K]
    (d : DiscriminatingDictionary K V) (k : K) (v : V) :
    Except DictError Unit × DiscriminatingDictionary K V :=
  let dr := d.discriminator k v
  if dr.1 then (.ok (), { d with entries := assocPut d.entries k v })
  else (.error (.discrimination dr.2), d)

/-- Modelled from the spec, §4.4: bulk `update` discriminates every pair
first; if any rejects the whole operation fails and nothing is mutated
(all-or-nothing). -/
def DiscriminatingDictionary.update {K V : Type} [DecidableEq K]
    (d : DiscriminatingDictionary K V) (ps : List (K × V)) :
    Except DictError Unit × DiscriminatingDictionary K V :=
  match ps.find? (fun p => !(d.discriminator p.1 p.2).1) with
  | some p => (.error (.discrimination (d.discriminator p.1 p.2).2), d)
  | none =>
    (.ok (), { d with entries := ps.foldl (fun es p => assocPut es p.1 p.2) d.entries })

/-- Modelled from the spec, §4.4: `set_default` inserts only when the key
is absent, discriminating the new pair first. -/
def DiscriminatingDictionary.setDefault {K V : Type} [DecidableEq K]
    (d : DiscriminatingDictionary K V) (k : K) (v : V) :
    Except DictError Unit × DiscriminatingDictionary K V :=
  match assocGet d.entries k with
  | some _ => (.ok (), d)
  | none => d.setItem k v

/-- Modelled from the spec, §4.4: `delete`/`pop` discriminate the removed
pair first; a missing key is a `KeyError`. -/
def DiscriminatingDictionary.delete {K V : Type} [DecidableEq K]
    (d : DiscriminatingDictionary K V) (k : K) :
    Except DictError Unit × DiscriminatingDictionary K V :=
  match assocGet d.entries k with
  | none => (.error .keyError, d)
  | some v =>
    let dr := d.discriminator k v
    if dr.1 then (.ok (), { d with entries := assocRemove d.entries k })
    else (.error (.discrimination dr.2), d)

/-- Modelled from the spec, §4.4: `pop_item` removes the most recently
inserted pair, discriminating it first. -/
def DiscriminatingDictionary.popItem {K V : Type} [DecidableEq K]
    (d : DiscriminatingDictionary K V) :
    Except DictError Unit × DiscriminatingDictionary K V :=
  match d.entries.getLast? with
  | none => (.error .keyError, d)
  | some p =>
    let dr := d.discriminator p.1 p.2
    if dr.1 then (.ok (), { d with entries := d.entries.dropLast })
    else (.error (.discrimination dr.2), d)

/-- Modelled from the spec, §4.4: `clear` discriminates every held pair
first; if any rejects, nothing is removed. -/
def DiscriminatingDictionary.clear {K V : Type} [DecidableEq K]
    (d : DiscriminatingDictionary K V) :
    Except DictError Unit × DiscriminatingDictionary K V :=
  match d.entries.find? (fun p => !(d.discriminator p.1 p.2).1) with
  | some p => (.error (.discrimination (d.discriminator p.1 p.2).2), d)
  | none => (.ok (), { d with entries := [] })

/-- One dictionary mutation (spec §4.4's operation list). -/
inductive DictOp (K V : Type) where
  | insert (k : K) (v : V)
  | update (ps : List (K × V))
  | setDefault (k : K) (v : V)
  | delete (k : K)
  | pop (k : K)
  | popItem
  | clear

/-- Apply one dictionary mutation. -/
def DiscriminatingDictionary.applyOp {K V : Type} [DecidableEq K]
    (d : DiscriminatingDictionary K V) :
    DictOp K V → Except DictError Unit × DiscriminatingDictionary K V
  | .insert k v => d.setItem k v
  | .update ps => d.update ps
  | .setDefault k v => d.setDefault k v
  | .delete k => d.delete k
  | .pop k => d.delete k
  | .popItem => d.popItem
  | .clear => d.clear

/-- The key/value pairs affected by a mutation: the inserted pairs for
insert/update/set_default (none when set_default finds the key present),
the removed pair for delete/pop/pop_item, everything for clear. -/
def DiscriminatingDictionary.affectedPairs {K V : Type} [DecidableEq K]
    (d : DiscriminatingDictionary K V) : DictOp K V → List (K × V)
  | .insert k v => [(k, v)]
  | .update ps => ps
  | .setDefault k v =>
    match assocGet d.entries k with
    | some _ => []
    | none => [(k, v)]
  | .delete k =>
    match assocGet d.entries k with
    | some v => [(k, v)]
    | none => []
  | .pop k =>
    match assocGet d.entries k with
    | some v => [(k, v)]
    | none => []
  | .popItem =>
    match d.entries.getLast? with
    | some p => [p]
    | none => []
  | .clear => d.entries

/-- The dictionary of spec scenario S4: discriminator accepts exactly the
nonnegative values, with reason string `Need pos`; one entry `"0" → 0`. -/
def dictS4 : DiscriminatingDictionary String Int :=
  ⟨fun _ v => (decide (0 ≤ v), "Need pos"), [("0", 0)]⟩

/-- A schematic-space bounding box. -/
structure Extents where
  minx : Int
  maxx : Int
  miny : Int
  maxy : Int
  minz : Int
  maxz : Int
  deriving Repr, DecidableEq

/-- The schematic-space extents of one region. -/
def Region.extents (r : Region) : Extents :=
  ⟨r.min_schem_x, r.max_schem_x, r.min_schem_y, r.max_schem_y,
    r.min_schem_z, r.max_schem_z⟩

/-- Bounding box of the union of two boxes: componentwise min/max. -/
def mergeExtents (a b : Extents) : Extents :=
  ⟨min a.minx b.minx, max a.maxx b.maxx, min a.miny b.miny,
    max a.maxy b.maxy, min a.minz b.minz, max a.maxz b.maxz⟩

/-- Bounding box enclosing the union of all regions' schematic-space
extents; `none` when there are no regions (spec §4.6). -/
def enclosingExtents : List (String × Region) → Option Extents
  | [] => none
  | (_, r) :: rest =>
    some (match enclosingExtents rest with
      | none => r.extents
      | some e => mergeExtents r.extents e)

/-- Merge a region's extents into an optional cached box. -/
def mergeOpt (c : Option Extents) (e : Extents) : Extents :=
  match c with
  | none => e
  | some a => mergeExtents a e

/-- Modelled from the spec: `Schematic` lives in the missing
`litemapy/schematic.py`.  Spec §3/§4.6: a name→Region mapping (held in a
DiscriminatingDictionary whose hooks maintain the cached extents), plus
metadata and the litematica format version fields. -/
structure Schematic where
  name : String
  author : String
  description : String
  regions : List (String × Region)
  cachedExtents : Option Extents
  lm_version : Int
  lm_subversion : Option Int
  mc_data_version : Int
  deriving Repr

/-- A fresh empty schematic (`Schematic()`): no regions, no cached box,
format version 6 by default. -/
def Schematic.empty : Schematic :=
  ⟨"", "", "", [], none, 6, none, 0⟩

/-- Modelled from the spec, §4.4/§4.6/§9: storing a region runs the
dictionary hooks synchronously: adding a new key fires `on_add`, which
merges the region's extents into the cache; replacing an existing key
fires `on_remove(old)` (which recomputes the cache over the current
contents) and then `on_add(new)`. -/
def Schematic.putRegion (s : Schematic) (name : String) (r : Region) :
    Schematic :=
  match assocGet s.regions name with
  | none =>
    { s with regions := s.regions ++ [(name, r)],
             cachedExtents := some (mergeOpt s.cachedExtents r.extents) }
  | some _ =>
    let regions' := s.regions.map (fun kv => if kv.1 = name then (name, r) else kv)
    { s with regions := regions',
             cachedExtents := some (mergeOpt (enclosingExtents regions') r.extents) }

/-- Modelled from the spec, §4.4/§4.6: deleting a region fires
`on_remove`, which recomputes the cached extents from the remaining
regions; a missing key raises KeyError and mutates nothing. -/
def Schematic.removeRegion (s : Schematic) (name : String) : Schematic :=
  match assocGet s.regions name with
  | none => s
  | some _ =>
    let regions' := assocRemove s.regions name
    { s with regions := regions', cachedExtents := enclosingExtents regions' }

/-- One mutation of a schematic's region map. -/
inductive SchemOp where
  | put (name : String) (r : Region)
  | remove (name : String)

/-- Apply one region-map mutation. -/
def Schematic.applyOp (s : Schematic) : SchemOp → Schematic
  | .put name r => s.putRegion name r
  | .remove name => s.removeRegion name

/-- Apply a sequence of region-map mutations in order. -/
def Schematic.applyOps (s : Schematic) (ops : List SchemOp) : Schematic :=
  ops.foldl Schematic.applyOp s

/-- `schematic.width`: x-extent of the cached enclosing box, 0 when
empty (spec §4.6). -/
def Schematic.width (s : Schematic) : Int :=
  match s.cachedExtents with
  | none => 0
  | some e => e.maxx - e.minx + 1

/-- `schematic.height`: see `Schematic.width`. -/
def Schematic.height (s : Schematic) : Int :=
  match s.cachedExtents with
  | none => 0
  | some e => e.maxy - e.miny + 1

/-- `schematic.length`: see `Schematic.width`. -/
def Schematic.length (s : Schematic) : Int :=
  match s.cachedExtents with
  | none => 0
  | some e => e.maxz - e.minz + 1

/-- Decode failure (spec §7 `CorruptedSchematic` and friends). -/
structure CorruptedSchematic where
  message : String
  deriving Repr, DecidableEq

/-- Turn an optional read into a decode step failing with the message. -/
def req {α : Type} (o : Option α) (msg : String) :
    Except CorruptedSchematic α :=
  match o with
  | some a => .ok a
  | none => .error ⟨msg⟩

/-- Modelled from the spec, §4.5: a palette entry is a compound with a
`Name` string and, when the state has properties, a `Properties`
compound of strings. -/
def BlockState.to_nbt (b : BlockState) : NBT :=
  .compound ([("Name", NBT.str b.id)] ++
    (if b.properties = [] then []
     else [("Properties",
       NBT.compound (b.properties.map (fun kv => (kv.1, NBT.str kv.2))))]))

/-- Decode a `Properties` compound back to string pairs. -/
def decodeProps : List (String × NBT) → Option (List (String × String))
  | [] => some []
  | (k, .str s) :: es => (decodeProps es).map (fun r => (k, s) :: r)
  | _ => none

/-- Modelled from the spec, §4.5: decode one palette entry. -/
def BlockState.from_nbt (t : NBT) : Option BlockState := do
  let name ← t.getStr? "Name"
  let props ←
    match t.lookup? "Properties" with
    | some (.compound es) => decodeProps es
    | none => some []
    | some _ => none
  pure ⟨name, props⟩

/-- Decode a `BlockStatePalette` list of compounds. -/
def decodeBlockStates : List NBT → Option (List BlockState)
  | [] => some []
  | t :: ts => do
    let b ← BlockState.from_nbt t
    let bs ← decodeBlockStates ts
    pure (b :: bs)

/-- Decode a `PendingBlockTicks` list of compounds. -/
def decodeBlockTicks : List NBT → Option (List PendingBlockTick)
  | [] => some []
  | t :: ts => do
    let b ← PendingBlockTick.from_nbt t
    let bs ← decodeBlockTicks ts
    pure (b :: bs)

/-- Decode a `PendingFluidTicks` list of compounds. -/
def decodeFluidTicks : List NBT → Option (List PendingFluidTick)
  | [] => some []
  | t :: ts => do
    let b ← PendingFluidTick.from_nbt t
    let bs ← decodeFluidTicks ts
    pure (b :: bs)

/-- Encode a position or size triple as a `{x, y, z}` compound. -/
def vec3ToNbt (p : Vec3) : NBT :=
  .compound [("x", .int p.x), ("y", .int p.y), ("z", .int p.z)]

/-- Decode a `{x, y, z}` compound. -/
def vec3FromNbt (t : NBT) : Option Vec3 := do
  let x ← t.getNum? "x"
  let y ← t.getNum? "y"
  let z ← t.getNum? "z"
  pure ⟨x, y, z⟩

/-- Modelled from the spec, §4.5 v7 packing: one 64-bit word holds
`⌊64/bits⌋` whole cells, lowest cell in the lowest bits; the value of one
word for a chunk of at most `⌊64/bits⌋` cells. -/
def packV7Word (chunk : List Nat) (bits : Nat) : Nat :=
  chunk.foldr (fun c acc => acc * 2 ^ bits + c % 2 ^ bits) 0

/-- Modelled from the spec, §4.5 v7 packing: cells never straddle words;
word `j` carries cells `[j·cpw, (j+1)·cpw)` with `cpw = ⌊64/bits⌋`. -/
def packV7 (cells : List Nat) (bits : Nat) : List Nat :=
  let cpw := 64 / bits
  (List.range ((cells.length + cpw - 1) / cpw)).map
    (fun j => packV7Word ((cells.drop (j * cpw)).take cpw) bits)

/-- Modelled from the spec, §4.5 v7 unpacking: cell `i` sits in word
`i / cpw` at offset `(i % cpw)·bits`. -/
def unpackV7 (ws : List Nat) (bits i : Nat) : Nat :=
  let cpw := 64 / bits
  ws.getD (i / cpw) 0 / 2 ^ (i % cpw * bits) % 2 ^ bits

/-- Modelled from the spec, §4.5: encode one region: position, size,
palette, verbatim entity/tile-entity lists, encoded tick lists, and the
packed `BlockStates` long array — the raw backing words for v6, the
no-straddle packing for v7. -/
def Region.to_nbt (v : Int) (r : Region) : NBT :=
  .compound [
    ("Position", vec3ToNbt r.position),
    ("Size", vec3ToNbt r.size),
    ("BlockStatePalette", .list (r.palette.map BlockState.to_nbt)),
    ("Entities", .list r.entities),
    ("TileEntities", .list r.tile_entities),
    ("PendingBlockTicks", .list (r.block_ticks.map PendingBlockTick.to_nbt)),
    ("PendingFluidTicks", .list (r.fluid_ticks.map PendingFluidTick.to_nbt)),
    ("BlockStates", .longArray
      (if v = 7 then packV7 r.blocks.cells r.blocks.nbits else r.blocks.array))]

/-- Modelled from the spec, §4.5 decode: read every region tag, determine
`bits = max(2, ceil(log2(len(palette))))` and `N = |dx|·|dy|·|dz|`, check
the long-array length, and unpack with the version-appropriate layout. -/
def Region.from_nbt (v : Int) (t : NBT) : Except CorruptedSchematic Region := do
  let posTag ← req (t.lookup? "Position") "Missing Position"
  let position ← req (vec3FromNbt posTag) "Bad Position"
  let sizeTag ← req (t.lookup? "Size") "Missing Size"
  let size ← req (vec3FromNbt sizeTag) "Bad Size"
  if size.x = 0 ∨ size.y = 0 ∨ size.z = 0 then
    .error ⟨"Bad region size"⟩
  else do
    let palTags ← req (t.getList? "BlockStatePalette") "Missing BlockStatePalette"
    let palette ← req (decodeBlockStates palTags) "Bad BlockStatePalette"
    let entities ← req (t.getList? "Entities") "Missing Entities"
    let tile_entities ← req (t.getList? "TileEntities") "Missing TileEntities"
    let btickTags ← req (t.getList? "PendingBlockTicks") "Missing PendingBlockTicks"
    let block_ticks ← req (decodeBlockTicks btickTags) "Bad PendingBlockTicks"
    let ftickTags ← req (t.getList? "PendingFluidTicks") "Missing PendingFluidTicks"
    let fluid_ticks ← req (decodeFluidTicks ftickTags) "Bad PendingFluidTicks"
    let ws ← req (t.getLongArray? "BlockStates") "Missing BlockStates"
    let N := size.x.natAbs * size.y.natAbs * size.z.natAbs
    let bits := requiredBits palette.length
    let blocks ←
      if v = 7 then
        let cpw := 64 / bits
        if ws.length = (N + cpw - 1) / cpw then
          .ok ((LitematicaBitArray.init N bits).writeSeq
            ((List.range N).map (unpackV7 ws bits)))
        else .error ⟨"BlockStates length does not match"⟩
      else
        if ws.length = (N * bits + 63) / 64 then
          .ok (LitematicaBitArray.mk N bits ws)
        else .error ⟨"BlockStates length does not match"⟩
    pure ⟨position, size, palette, blocks, entities, tile_entities,
      block_ticks, fluid_ticks⟩

/-- Decode the `Regions` compound in order. -/
def decodeRegions (v : Int) :
    List (String × NBT) → Except CorruptedSchematic (List (String × Region))
  | [] => .ok []
  | (name, t) :: rest => do
    let r ← Region.from_nbt v t
    let rs ← decodeRegions v rest
    pure ((name, r) :: rs)

/-- Count of non-air cells of a region (Metadata `TotalBlocks`). -/
def Region.countBlocks (r : Region) : Nat :=
  (r.blocks.cells.filter (fun c => c ≠ 0)).length

/-- Modelled from the spec, §4.5/§4.6: `save` prunes every region and
encodes the whole schematic as one NBT tree (gzip and file writing are the
out-of-scope external collaborators).  `SubVersion` is emitted only when
set; metadata timestamps are out of scope and written as zero. -/
def Schematic.save_nbt (s : Schematic) : NBT :=
  let pruned := s.regions.map (fun kv => (kv.1, kv.2.prune))
  .compound ([("Version", NBT.int s.lm_version)] ++
    (match s.lm_subversion with
     | some sv => [("SubVersion", NBT.int sv)]
     | none => []) ++
    [("MinecraftDataVersion", NBT.int s.mc_data_version),
     ("Metadata", .compound [
       ("Name", .str s.name),
       ("Author", .str s.author),
       ("Description", .str s.description),
       ("TimeCreated", .long 0),
       ("TimeModified", .long 0),
       ("RegionCount", .int pruned.length),
       ("TotalVolume", .int (pruned.foldl (fun acc kv => acc + (kv.2.volume : Int)) 0)),
       ("TotalBlocks", .int (pruned.foldl (fun acc kv => acc + (kv.2.countBlocks : Int)) 0)),
       ("EnclosingSize", .compound [("x", .int s.width), ("y", .int s.height),
         ("z", .int s.length)])]),
     ("Regions", .compound (pruned.map (fun kv => (kv.1, Region.to_nbt s.lm_version kv.2))))])

/-- Modelled from the spec, §4.5/§4.6 decode: dispatch on the `Version`
tag (anything other than 6 or 7 fails with
`CorruptedSchematic("Unsupported Litematica version: <v>")`), then read
the metadata block and decode every region; the cached extents are
rebuilt by the region dictionary's `on_add` hooks, which amounts to the
enclosing box of the decoded regions. -/
def Schematic.from_nbt (t : NBT) : Except CorruptedSchematic Schematic := do
  let v ← req (t.getNum? "Version") "Missing Version"
  if v ≠ 6 ∧ v ≠ 7 then
    .error ⟨"Unsupported Litematica version: " ++ toString v⟩
  else do
    let mcdv ← req (t.getNum? "MinecraftDataVersion") "Missing MinecraftDataVersion"
    let subversion := t.getNum? "SubVersion"
    let meta ← req (t.lookup? "Metadata") "Missing Metadata"
    let name ← req (meta.getStr? "Name") "Missing Name"
    let author ← req (meta.getStr? "Author") "Missing Author"
    let description ← req (meta.getStr? "Description") "Missing Description"
    let regTag ← req (t.lookup? "Regions") "Missing Regions"
    match regTag with
    | .compound regEntries => do
      let regions ← decodeRegions v regEntries
      pure ⟨name, author, description, regions, enclosingExtents regions,
        v, subversion, mcdv⟩
    | _ => .error ⟨"Bad Regions"⟩

/-- The agreement relation of the save/load identity for one named
region: same name, origin, size, BlockState at every local position,
entities (in list order, NBT-equal), tile entities, and block and fluid
ticks. -/
def RegionEntryAgrees (a b : String × Region) : Prop :=
  a.1 = b.1 ∧ a.2.position = b.2.position ∧ a.2.size = b.2.size ∧
  a.2.entities = b.2.entities ∧ a.2.tile_entities = b.2.tile_entities ∧
  a.2.block_ticks = b.2.block_ticks ∧ a.2.fluid_ticks = b.2.fluid_ticks ∧
  ∀ x y z : Nat, x < b.2.lenX → y < b.2.lenY → z < b.2.lenZ →
    a.2.getBlock x y z = b.2.getBlock x y z

/-- The agreement relation of the save/load identity: the claim's list of
preserved observations, everything the decoder is claimed to restore. -/
def SaveLoadAgrees (t s : Schematic) : Prop :=
  t.name = s.name ∧ t.author = s.author ∧ t.description = s.description ∧
  t.lm_version = s.lm_version ∧ t.lm_subversion = s.lm_subversion ∧
  t.mc_data_version = s.mc_data_version ∧
  List.Forall₂ RegionEntryAgrees t.regions s.regions

/-- Well-formedness of a region (spec §3 region invariants): nonzero size
components, AIR at palette index 0, the bit array sized to the volume at
the palette's required width (which fits in 64 bits), a backing vector of
exactly `⌈N·bits/64⌉` 64-bit words, and every cell referencing a valid
palette index. -/
def Region.WFR (r : Region) : Prop :=
  r.size.x ≠ 0 ∧ r.size.y ≠ 0 ∧ r.size.z ≠ 0 ∧
  r.palette.head? = some AIR ∧
  r.blocks.size = r.volume ∧
  r.blocks.nbits = requiredBits r.palette.length ∧
  requiredBits r.palette.length ≤ 64 ∧
  WordsWF r.blocks.array ∧
  r.blocks.array.length = (r.blocks.size * r.blocks.nbits + 63) / 64 ∧
  ∀ c ∈ r.blocks.cells, c < r.palette.length

/-- The NBT root of the unsupported-version test: `Version=4` with an
otherwise complete metadata block and an empty `Regions` compound. -/
def unsupportedNBT : NBT :=
  .compound [
    ("Version", .int 4),
    ("SubVersion", .int 0),
    ("MinecraftDataVersion", .int 2975),
    ("Metadata", .compound [
      ("Name", .str "Test"),
      ("Author", .str "Test"),
      ("Description", .str "Test"),
      ("TimeCreated", .long 0),
      ("TimeModified", .long 0),
      ("RegionCount", .int 0),
      ("TotalBlocks", .int 0),
      ("TotalVolume", .int 0),
      ("EnclosingSize", .compound [("x", .int 0), ("y", .int 0), ("z", .int 0)])]),
    ("Regions", .compound [])]

/-- A plain stone block state. -/
def stone : BlockState := ⟨"minecraft:stone", []⟩

/-- A small concrete region in the spirit of spec scenario S5: a 2×2×2
region with stone stored at the origin. -/
def regionS5 : Region := (mkRegion ⟨0, 0, 0⟩ ⟨2, 2, 2⟩).setBlock 0 0 0 stone

/-- A concrete one-region schematic, format version 6, as in scenario S5. -/
def schematicS5 : Schematic :=
  ⟨"Test v6", "Test", "Testing v6", [("main", regionS5)],
    some regionS5.extents, 6, none, 2975⟩

theorem WordsWF_getD {ws : List Nat} (hwf : WordsWF ws) (k : Nat) :
    ws.getD k 0 < 2 ^ 64 := by
  rw [List.getD_eq_getElem?_getD]
  cases hh : ws[k]? with
  | none => simp
  | some a => simpa using hwf a (List.getElem?_mem hh)

theorem testBit_high {x i : Nat} (hx : x < 2 ^ 64) (hi : 64 ≤ i) :
    x.testBit i = false :=
  Nat.testBit_lt_two_pow (lt_of_lt_of_le hx (Nat.pow_le_pow_right (by norm_num) hi))

theorem lowMask_testBit (n i : Nat) : (lowMask n).testBit i = decide (i < n) :=
  Nat.testBit_two_pow_sub_one n i

/-- Reading a cell extracts exactly the bits `[i*bits, i*bits+bits)` of the
conceptual packed stream. -/
theorem wordsGet_testBit (ws : List Nat) (bits i : Nat) (hb : bits ≤ 64)
    (hwf : WordsWF ws) (m : Nat) :
    (wordsGet ws bits i).testBit m
      = (decide (m < bits) && streamBit ws (i * bits + m)) := by
  unfold wordsGet streamBit
  by_cases hm : m < bits
  · by_cases hs : i * bits % 64 + bits ≤ 64
    · simp only [hs, if_true]
      rw [(by omega : (i * bits + m) / 64 = i * bits / 64),
        (by omega : (i * bits + m) % 64 = i * bits % 64 + m)]
      simp [Nat.testBit_and, Nat.testBit_shiftRight, lowMask_testBit, hm]
    · simp only [hs, if_false]
      by_cases hlo : i * bits % 64 + m < 64
      · rw [(by omega : (i * bits + m) / 64 = i * bits / 64),
          (by omega : (i * bits + m) % 64 = i * bits % 64 + m)]
        simp only [Nat.testBit_and, Nat.testBit_or, Nat.testBit_shiftRight,
          Nat.testBit_shiftLeft, lowMask_testBit, hm,
          ge_iff_le]
        have hmlt : ¬ (64 - i * bits % 64 ≤ m) := by omega
        simp [hmlt]
      · have h64 : i * bits % 64 < 64 := Nat.mod_lt _ (by norm_num)
        rw [(by omega : (i * bits + m) / 64 = i * bits / 64 + 1),
          (by omega : (i * bits + m) % 64 = m - (64 - i * bits % 64))]
        simp only [Nat.testBit_and, Nat.testBit_or, Nat.testBit_shiftRight,
          Nat.testBit_shiftLeft, lowMask_testBit, hm,
          ge_iff_le]
        rw [testBit_high (WordsWF_getD hwf _) (by omega)]
        have hge : 64 - i * bits % 64 ≤ m := by omega
        simp [hge]
  · simp only [Nat.testBit_and, lowMask_testBit, hm,
      Bool.false_and]
    split <;>
      simp [Nat.testBit_and, lowMask_testBit, hm]

theorem getD_set_eq {ws : List Nat} {k : Nat} (hk : k < ws.length) (w j : Nat) :
    (ws.set k w).getD j 0 = if k = j then w else ws.getD j 0 := by
  rw [List.getD_eq_getElem?_getD, List.getElem?_set, List.getD_eq_getElem?_getD]
  split
  · simp [hk]
  · rfl

/-- Writing a cell changes exactly the bits `[i*bits, i*bits+bits)` of the
conceptual packed stream, replacing them with the bits of the value. -/
theorem streamBit_wordsSet (ws : List Nat) (bits i v : Nat) (hb : bits ≤ 64)
    (hbpos : 0 < bits)
    (hcap : i * bits + bits ≤ 64 * ws.length) (n : Nat) :
    streamBit (wordsSet ws bits i v) n =
      if i * bits ≤ n ∧ n < i * bits + bits then v.testBit (n - i * bits)
      else streamBit ws n := by
  have hoff : i * bits % 64 < 64 := Nat.mod_lt _ (by norm_num)
  have ho' : n % 64 < 64 := Nat.mod_lt _ (by norm_num)
  by_cases hs : i * bits % 64 + bits ≤ 64
  · have hk : i * bits / 64 < ws.length := by omega
    unfold wordsSet streamBit
    simp only [hs, if_true]
    rw [getD_set_eq hk]
    by_cases hkj : i * bits / 64 = n / 64
    · simp only [if_pos hkj]
      simp only [Nat.testBit_or, Nat.testBit_and, Nat.testBit_xor,
        Nat.testBit_shiftLeft, lowMask_testBit, ge_iff_le]
      by_cases hin : i * bits ≤ n ∧ n < i * bits + bits
      · have h1 : i * bits % 64 ≤ n % 64 := by omega
        have h2 : n % 64 - i * bits % 64 < bits := by omega
        have h3 : n - i * bits = n % 64 - i * bits % 64 := by omega
        simp [hin, h1, h2, h3, ho']
      · have hout : n % 64 < i * bits % 64 ∨ i * bits % 64 + bits ≤ n % 64 := by
          omega
        simp only [if_neg hin]
        rcases hout with hout | hout
        · have h1 : ¬ i * bits % 64 ≤ n % 64 := by omega
          simp [h1, ho', hkj]
        · have h1 : i * bits % 64 ≤ n % 64 := by omega
          have h2 : ¬ n % 64 - i * bits % 64 < bits := by omega
          simp [h1, h2, ho', hkj, streamBit]
    · simp only [if_neg hkj]
      have hnin : ¬ (i * bits ≤ n ∧ n < i * bits + bits) := by omega
      simp [hnin, streamBit]
  · have hk : i * bits / 64 < ws.length := by omega
    have hk1 : i * bits / 64 + 1 < ws.length := by omega
    unfold wordsSet streamBit
    simp only [hs, if_false]
    have hlen : (ws.set (i * bits / 64)
        ((ws.getD (i * bits / 64) 0 &&& lowMask (i * bits % 64)) |||
          ((v &&& lowMask bits &&& lowMask (64 - i * bits % 64)) <<< (i * bits % 64)))).length
        = ws.length := List.length_set ..
    rw [getD_set_eq (by omega), getD_set_eq hk]
    rw [getD_set_eq hk]
    simp only [if_neg (by omega : ¬ i * bits / 64 = i * bits / 64 + 1)]
    by_cases hkj1 : i * bits / 64 + 1 = n / 64
    · simp only [if_pos hkj1]
      simp only [Nat.testBit_or, Nat.testBit_and, Nat.testBit_xor,
        Nat.testBit_shiftRight, lowMask_testBit, ge_iff_le]
      by_cases hin : n % 64 < bits - (64 - i * bits % 64)
      · have h1 : i * bits ≤ n ∧ n < i * bits + bits := by omega
        have h2 : 64 - i * bits % 64 + n % 64 < bits := by omega
        have h3 : n - i * bits = 64 - i * bits % 64 + n % 64 := by omega
        simp [h1, h2, h3, hin, ho']
      · have h1 : ¬ (i * bits ≤ n ∧ n < i * bits + bits) := by omega
        have h2 : ¬ (64 - i * bits % 64 + n % 64 < bits) := by omega
        simp [h1, h2, hin, ho', streamBit, hkj1.symm]
    · by_cases hkj : i * bits / 64 = n / 64
      · simp only [if_pos hkj, if_neg hkj1]
        simp only [Nat.testBit_or, Nat.testBit_and, Nat.testBit_shiftLeft,
          lowMask_testBit, ge_iff_le]
        by_cases hin : i * bits % 64 ≤ n % 64
        · have h1 : i * bits ≤ n ∧ n < i * bits + bits := by omega
          have h2 : ¬ n % 64 < i * bits % 64 := by omega
          have h3 : n % 64 - i * bits % 64 < 64 - i * bits % 64 := by omega
          have h4 : n % 64 - i * bits % 64 < bits := by omega
          have h5 : n - i * bits = n % 64 - i * bits % 64 := by omega
          simp [h1, h2, h3, h4, h5, hin]
        · have h1 : ¬ (i * bits ≤ n ∧ n < i * bits + bits) := by omega
          have h2 : n % 64 < i * bits % 64 := by omega
          simp [h1, h2, hin, hkj, streamBit]
      · simp only [if_neg hkj, if_neg hkj1]
        have hnin : ¬ (i * bits ≤ n ∧ n < i * bits + bits) := by omega
        simp [hnin, streamBit]

theorem wordsSet_length (ws : List Nat) (bits i v : Nat) :
    (wordsSet ws bits i v).length = ws.length := by
  unfold wordsSet
  by_cases hs : i * bits % 64 + bits ≤ 64 <;> simp [hs]

theorem shiftLeft_lt_two_pow {x a n : Nat} (hx : x < 2 ^ a) (ha : a + n ≤ 64) :
    x <<< n < 2 ^ 64 := by
  rw [Nat.shiftLeft_eq]
  calc x * 2 ^ n < 2 ^ a * 2 ^ n :=
        (Nat.mul_lt_mul_right (Nat.pos_pow_of_pos n (by norm_num))).mpr hx
    _ = 2 ^ (a + n) := by rw [Nat.pow_add]
    _ ≤ 2 ^ 64 := Nat.pow_le_pow_right (by norm_num) ha

theorem wordsSet_WF {ws : List Nat} (hwf : WordsWF ws) (bits i v : Nat)
    (hb : bits ≤ 64) : WordsWF (wordsSet ws bits i v) := by
  have hoff : i * bits % 64 < 64 := Nat.mod_lt _ (by norm_num)
  have hmask : ∀ n, lowMask n < 2 ^ n := by
    intro n
    have : 0 < 2 ^ n := Nat.pos_pow_of_pos n (by norm_num)
    unfold lowMask
    omega
  intro w hw
  unfold wordsSet at hw
  by_cases hs : i * bits % 64 + bits ≤ 64 <;> simp only [hs, if_true, if_false] at hw
  · rcases List.mem_or_eq_of_mem_set hw with h | h
    · exact hwf w h
    · subst h
      refine Nat.or_lt_two_pow (lt_of_le_of_lt Nat.and_le_left (WordsWF_getD hwf _)) ?_
      exact shiftLeft_lt_two_pow
        (lt_of_le_of_lt Nat.and_le_right (hmask bits)) (by omega)
  · rcases List.mem_or_eq_of_mem_set hw with h | h
    · rcases List.mem_or_eq_of_mem_set h with h2 | h2
      · exact hwf w h2
      · subst h2
        refine Nat.or_lt_two_pow (lt_of_le_of_lt Nat.and_le_left (WordsWF_getD hwf _)) ?_
        exact shiftLeft_lt_two_pow
          (lt_of_le_of_lt Nat.and_le_right (hmask (64 - i * bits % 64))) (by omega)
    · subst h
      refine Nat.or_lt_two_pow
        (lt_of_le_of_lt Nat.and_le_left (WordsWF_getD ?_ _)) ?_
      · intro u hu
        rcases List.mem_or_eq_of_mem_set hu with h2 | h2
        · exact hwf u h2
        · subst h2
          refine Nat.or_lt_two_pow (lt_of_le_of_lt Nat.and_le_left (WordsWF_getD hwf _)) ?_
          exact shiftLeft_lt_two_pow
            (lt_of_le_of_lt Nat.and_le_right (hmask (64 - i * bits % 64))) (by omega)
      · calc (v &&& lowMask bits) >>> (64 - i * bits % 64)
            ≤ v &&& lowMask bits := by
              rw [Nat.shiftRight_eq_div_pow]; exact Nat.div_le_self _ _
          _ ≤ lowMask bits := Nat.and_le_right
          _ < 2 ^ bits := hmask bits
          _ ≤ 2 ^ 64 := Nat.pow_le_pow_right (by norm_num) hb

/-- Reading the cell just written returns the value written. -/
theorem wordsGet_wordsSet_self {ws : List Nat} (hwf : WordsWF ws)
    {bits i v : Nat} (hb : bits ≤ 64) (hbpos : 0 < bits) (hv : v < 2 ^ bits)
    (hcap : i * bits + bits ≤ 64 * ws.length) :
    wordsGet (wordsSet ws bits i v) bits i = v := by
  apply Nat.eq_of_testBit_eq
  intro m
  rw [wordsGet_testBit _ _ _ hb (wordsSet_WF hwf _ _ _ hb)]
  by_cases hm : m < bits
  · rw [streamBit_wordsSet _ _ _ _ hb hbpos hcap]
    have hin : i * bits ≤ i * bits + m ∧ i * bits + m < i * bits + bits := by omega
    simp [hin, hm]
  · have : v.testBit m = false :=
      Nat.testBit_lt_two_pow (lt_of_lt_of_le hv (Nat.pow_le_pow_right (by norm_num) (by omega)))
    simp [hm, this]

/-- Writing one cell does not change any other cell. -/
theorem wordsGet_wordsSet_ne {ws : List Nat} (hwf : WordsWF ws)
    {bits i j v : Nat} (hb : bits ≤ 64) (hbpos : 0 < bits) (hne : j ≠ i)
    (hcap : i * bits + bits ≤ 64 * ws.length) :
    wordsGet (wordsSet ws bits i v) bits j = wordsGet ws bits j := by
  apply Nat.eq_of_testBit_eq
  intro m
  rw [wordsGet_testBit _ _ _ hb (wordsSet_WF hwf _ _ _ hb),
    wordsGet_testBit _ _ _ hb hwf]
  by_cases hm : m < bits
  · rw [streamBit_wordsSet _ _ _ _ hb hbpos hcap]
    have hnin : ¬ (i * bits ≤ j * bits + m ∧ j * bits + m < i * bits + bits) := by
      rcases Nat.lt_or_ge j i with h | h
      · have : (j + 1) * bits ≤ i * bits := Nat.mul_le_mul_right bits (by omega)
        rw [Nat.add_mul, Nat.one_mul] at this
        omega
      · have hji : i + 1 ≤ j := by omega
        have : (i + 1) * bits ≤ j * bits := Nat.mul_le_mul_right bits hji
        rw [Nat.add_mul, Nat.one_mul] at this
        omega
    simp [hnin]
  · simp [hm]

theorem LitematicaBitArray.init_WF (size nbits : Nat) :
    (LitematicaBitArray.init size nbits).WF := by
  constructor
  · intro w hw
    rcases List.eq_of_mem_replicate hw with rfl
    exact Nat.pos_pow_of_pos 64 (by norm_num)
  · simp only [LitematicaBitArray.init, List.length_replicate]
    omega

theorem LitematicaBitArray.setCell_size (a : LitematicaBitArray) (i v : Nat) :
    (a.setCell i v).size = a.size := rfl

theorem LitematicaBitArray.setCell_nbits (a : LitematicaBitArray) (i v : Nat) :
    (a.setCell i v).nbits = a.nbits := rfl

theorem LitematicaBitArray.setCell_WF {a : LitematicaBitArray} (h : a.WF)
    (hb : a.nbits ≤ 64) (i v : Nat) : (a.setCell i v).WF := by
  refine ⟨wordsSet_WF h.1 _ _ _ hb, ?_⟩
  rw [LitematicaBitArray.setCell]
  simp only [wordsSet_length]
  exact h.2

theorem cell_cap {a : LitematicaBitArray} (h : a.WF) {i : Nat} (hi : i < a.size) :
    i * a.nbits + a.nbits ≤ 64 * a.array.length := by
  have h1 : (i + 1) * a.nbits ≤ a.size * a.nbits :=
    Nat.mul_le_mul_right _ (by omega)
  rw [Nat.add_mul, Nat.one_mul] at h1
  exact le_trans h1 h.2

theorem LitematicaBitArray.getCell_setCell_self {a : LitematicaBitArray}
    (h : a.WF) (hb : a.nbits ≤ 64) (hbpos : 0 < a.nbits) {i v : Nat}
    (hi : i < a.size) (hv : v < 2 ^ a.nbits) :
    (a.setCell i v).getCell i = v :=
  wordsGet_wordsSet_self h.1 hb hbpos hv (cell_cap h hi)

theorem LitematicaBitArray.getCell_setCell_ne {a : LitematicaBitArray}
    (h : a.WF) (hb : a.nbits ≤ 64) (hbpos : 0 < a.nbits) {i j v : Nat}
    (hi : i < a.size) (hne : j ≠ i) :
    (a.setCell i v).getCell j = a.getCell j :=
  wordsGet_wordsSet_ne h.1 hb hbpos hne (cell_cap h hi)

theorem LitematicaBitArray.writeFrom_size (a : LitematicaBitArray)
    (start : Nat) (vs : List Nat) : (a.writeFrom start vs).size = a.size := by
  induction vs generalizing a start with
  | nil => rfl
  | cons v vs ih => rw [LitematicaBitArray.writeFrom, ih]; rfl

theorem LitematicaBitArray.writeFrom_nbits (a : LitematicaBitArray)
    (start : Nat) (vs : List Nat) : (a.writeFrom start vs).nbits = a.nbits := by
  induction vs generalizing a start with
  | nil => rfl
  | cons v vs ih => rw [LitematicaBitArray.writeFrom, ih]; rfl

theorem LitematicaBitArray.writeFrom_WF {a : LitematicaBitArray} (h : a.WF)
    (hb : a.nbits ≤ 64) (start : Nat) (vs : List Nat) :
    (a.writeFrom start vs).WF := by
  induction vs generalizing a start with
  | nil => exact h
  | cons v vs ih =>
    rw [LitematicaBitArray.writeFrom]
    exact ih (a.setCell_WF h hb start v) hb (start + 1)

theorem LitematicaBitArray.getCell_writeFrom_lt {a : LitematicaBitArray}
    (h : a.WF) (hb : a.nbits ≤ 64) (hbpos : 0 < a.nbits) {start j : Nat}
    (vs : List Nat) (hcap : start + vs.length ≤ a.size) (hj : j < start) :
    (a.writeFrom start vs).getCell j = a.getCell j := by
  induction vs generalizing a start with
  | nil => rfl
  | cons v vs ih =>
    have hlen := hcap
    simp only [List.length_cons] at hlen
    rw [LitematicaBitArray.writeFrom]
    rw [ih (a.setCell_WF h hb start v) hb hbpos
      (by rw [LitematicaBitArray.setCell_size]; omega) (by omega)]
    exact a.getCell_setCell_ne h hb hbpos (by omega) (by omega)

theorem LitematicaBitArray.getCell_writeFrom {a : LitematicaBitArray}
    (h : a.WF) (hb : a.nbits ≤ 64) (hbpos : 0 < a.nbits) {start : Nat}
    {vs : List Nat} (hcap : start + vs.length ≤ a.size)
    (hv : ∀ v ∈ vs, v < 2 ^ a.nbits) {m : Nat} (hm : m < vs.length) :
    (a.writeFrom start vs).getCell (start + m) = vs.getD m 0 := by
  induction vs generalizing a start m with
  | nil => simp at hm
  | cons v vs ih =>
    have hlen := hcap
    simp only [List.length_cons] at hlen
    rw [LitematicaBitArray.writeFrom]
    cases m with
    | zero =>
      have hwf' := a.setCell_WF h hb start v
      rw [LitematicaBitArray.getCell_writeFrom_lt hwf' hb hbpos vs
        (by rw [LitematicaBitArray.setCell_size]; omega) (by omega)]
      simpa using a.getCell_setCell_self h hb hbpos
        (by omega) (hv v (by simp))
    | succ m =>
      have hwf' := a.setCell_WF h hb start v
      have hrec := ih hwf' hb hbpos
        (show start + 1 + vs.length ≤ (a.setCell start v).size by
          rw [LitematicaBitArray.setCell_size]; omega)
        (fun u hu => hv u (by simp [hu])) (m := m) (by simpa using hm)
      rw [(by omega : start + (m + 1) = start + 1 + m), hrec]
      rfl

theorem writeSeq_getCell {nbits : Nat} {vs : List Nat} {N : Nat}
    (hN : vs.length ≤ N)
    (hb : nbits ≤ 64) (hbpos : 0 < nbits) (hv : ∀ v ∈ vs, v < 2 ^ nbits)
    {i : Nat} (hi : i < vs.length) :
    ((LitematicaBitArray.init N nbits).writeSeq vs).getCell i = vs.getD i 0 := by
  have hwf := LitematicaBitArray.init_WF N nbits
  unfold LitematicaBitArray.writeSeq
  have hsz : (LitematicaBitArray.init N nbits).size = N := rfl
  have h := LitematicaBitArray.getCell_writeFrom (m := i) hwf hb hbpos
    (show 0 + vs.length ≤ (LitematicaBitArray.init N nbits).size by
      rw [hsz]; omega) hv hi
  simpa using h

/-- C2: For every BitArray constructed with parameters `(N, bits)` and every
sequence of values `v[0], …, v[N-1]` with each `v[i] < 2^bits`, writing
`v[i]` to cell `i` for all `i` and then reading every cell returns exactly
the values written, each at its own index. -/
theorem claim_C2_bitarray_roundtrip (nbits : Nat) (vs : List Nat)
    (hb : nbits ≤ 64) (hbpos : 0 < nbits) (hv : ∀ v ∈ vs, v < 2 ^ nbits)
    (i : Nat) (hi : i < vs.length) :
    ((LitematicaBitArray.init vs.length nbits).writeSeq vs).get i
      = some (vs.getD i 0) := by
  have hsz : ((LitematicaBitArray.init vs.length nbits).writeSeq vs).size
      = vs.length := LitematicaBitArray.writeFrom_size ..
  unfold LitematicaBitArray.get
  rw [hsz, if_pos hi]
  rw [writeSeq_getCell (le_refl vs.length) hb hbpos hv hi]

/-- Witness for C2 at the concrete scenario S3 of the spec: a 16-cell,
7-bit array loaded with the test sequence reads back 13 at index 4. -/
theorem claim_C2_bitarray_roundtrip_witness :
    ((LitematicaBitArray.init 16 7).writeSeq
        [0, 0, 0, 12, 13, 0, 4, 0, 2, 4, 1, 3, 3, 7, 65, 9]).get 4 = some 13 :=
  (claim_C2_bitarray_roundtrip 7 [0, 0, 0, 12, 13, 0, 4, 0, 2, 4, 1, 3, 3, 7, 65, 9]
    (by decide) (by decide) (by decide) 4 (by decide)).trans (by decide)

theorem pendingBlockTick_from_to (t : PendingBlockTick) :
    PendingBlockTick.from_nbt t.to_nbt = some t := rfl

theorem pendingFluidTick_from_to (t : PendingFluidTick) :
    PendingFluidTick.from_nbt t.to_nbt = some t := rfl

/-- C10: For every PendingBlockTick `t`, `from_nbt (to_nbt t) = t`, and
`to_nbt t` is a compound whose keys are exactly `block`, `priority`,
`sub_tick`, `time`, `x`, `y`, `z` mapped to `t`'s field values; likewise
for every PendingFluidTick with `fluid` in place of `block`. -/
theorem claim_C10_tick_roundtrip (t : PendingBlockTick) (u : PendingFluidTick) :
    PendingBlockTick.from_nbt t.to_nbt = some t ∧
    t.to_nbt = NBT.compound [("block", .str t.block), ("priority", .int t.priority),
      ("sub_tick", .int t.sub_tick), ("time", .int t.time),
      ("x", .int t.x), ("y", .int t.y), ("z", .int t.z)] ∧
    t.to_nbt.keys = ["block", "priority", "sub_tick", "time", "x", "y", "z"] ∧
    PendingFluidTick.from_nbt u.to_nbt = some u ∧
    u.to_nbt = NBT.compound [("fluid", .str u.fluid), ("priority", .int u.priority),
      ("sub_tick", .int u.sub_tick), ("time", .int u.time),
      ("x", .int u.x), ("y", .int u.y), ("z", .int u.z)] ∧
    u.to_nbt.keys = ["fluid", "priority", "sub_tick", "time", "x", "y", "z"] :=
  ⟨pendingBlockTick_from_to t, rfl, rfl, pendingFluidTick_from_to u, rfl, rfl⟩

/-- C3 (code bug): at an NBT root carrying `Version=6`, `SubVersion=1`,
`MinecraftDataVersion=2975`, the decoder `LitematicMetadata.from_nbt`
returns `version = 2975` (the MinecraftDataVersion, not the root Version 6)
and `sub_version = some 6` (the root Version, not the SubVersion 1); only
`minecraft_data_version` matches the claim.  The source assigns
`version=nbt["MinecraftDataVersion"]` and
`sub_version=nbt.get("Version", nbt.get("MinecraftDataVersion"))`,
contradicting its own dataclass docstrings. -/
theorem claim_C3_metadata_version_bug :
    (LitematicMetadata.from_nbt metadataTestNBT).map
        (fun m => (m.version, m.sub_version, m.minecraft_data_version))
      = some (2975, some 6, 2975) ∧ (2975 : Int) ≠ 6 ∧ some (6 : Int) ≠ some 1 :=
  ⟨rfl, by decide, by decide⟩

/-- C9 (code bug): at an NBT tree whose Metadata stores `EnclosingSize` as
the compound `{x:1, y:2, z:3}`, `LitematicMetadata.from_nbt` sets
`enclosing_size` to the tuple of the dict's KEYS — the strings
`("x","y","z")` — not the integer triple `(1,2,3)`: Python `tuple(dict)`
iterates keys.  This contradicts the source's own annotation
`enclosing_size: tuple[int, int, int]`. -/
theorem claim_C9_enclosing_size_bug :
    (LitematicMetadata.from_nbt metadataTestNBT).map (fun m => m.enclosing_size)
      = some [NBT.str "x", NBT.str "y", NBT.str "z"] := rfl

/-- C4: For every Region with origin `(x, y, z)` and size `(dx, dy, dz)`
whose components are nonzero: `min_schem_x`/`max_schem_x` return `x` and
`x + dx - 1` when `dx > 0`, and `x - (|dx| - 1)` and `x` when `dx < 0`;
`min_x`/`max_x` return `0` and `|dx| - 1` when `dx > 0`, and `-(|dx| - 1)`
and `0` when `dx < 0`; and the same holds for the y and z axes. -/
theorem claim_C4_region_min_max (r : Region)
    (hx : r.size.x ≠ 0) (hy : r.size.y ≠ 0) (hz : r.size.z ≠ 0) :
    (0 < r.size.x →
       r.min_schem_x = r.position.x ∧
       r.max_schem_x = r.position.x + r.size.x - 1 ∧
       r.min_x = 0 ∧ r.max_x = (r.lenX : Int) - 1) ∧
    (r.size.x < 0 →
       r.min_schem_x = r.position.x - ((r.lenX : Int) - 1) ∧
       r.max_schem_x = r.position.x ∧
       r.min_x = -((r.lenX : Int) - 1) ∧ r.max_x = 0) ∧
    (0 < r.size.y →
       r.min_schem_y = r.position.y ∧
       r.max_schem_y = r.position.y + r.size.y - 1 ∧
       r.min_y = 0 ∧ r.max_y = (r.lenY : Int) - 1) ∧
    (r.size.y < 0 →
       r.min_schem_y = r.position.y - ((r.lenY : Int) - 1) ∧
       r.max_schem_y = r.position.y ∧
       r.min_y = -((r.lenY : Int) - 1) ∧ r.max_y = 0) ∧
    (0 < r.size.z →
       r.min_schem_z = r.position.z ∧
       r.max_schem_z = r.position.z + r.size.z - 1 ∧
       r.min_z = 0 ∧ r.max_z = (r.lenZ : Int) - 1) ∧
    (r.size.z < 0 →
       r.min_schem_z = r.position.z - ((r.lenZ : Int) - 1) ∧
       r.max_schem_z = r.position.z ∧
       r.min_z = -((r.lenZ : Int) - 1) ∧ r.max_z = 0) := by
  unfold Region.min_schem_x Region.max_schem_x Region.min_x Region.max_x
    Region.min_schem_y Region.max_schem_y Region.min_y Region.max_y
    Region.min_schem_z Region.max_schem_z Region.min_z Region.max_z
  refine ⟨fun h => ?_, fun h => ?_, fun h => ?_, fun h => ?_, fun h => ?_,
    fun h => ?_⟩
  · simp [if_pos h]
  · simp [if_neg (by omega : ¬ 0 < r.size.x)]
  · simp [if_pos h]
  · simp [if_neg (by omega : ¬ 0 < r.size.y)]
  · simp [if_pos h]
  · simp [if_neg (by omega : ¬ 0 < r.size.z)]

/-- Witness for C4 at spec scenario S2: `Region(-10,-10,-10,-10,-10,-10)`
has `min_schem_x = -19`, `max_schem_x = -10`, `min_x = -9`, `max_x = 0`. -/
theorem claim_C4_region_min_max_witness :
    regionS2.min_schem_x = -19 ∧ regionS2.max_schem_x = -10 ∧
    regionS2.min_x = -9 ∧ regionS2.max_x = 0 := by
  have h := (claim_C4_region_min_max regionS2
    (by decide) (by decide) (by decide)).2.1 (by decide)
  exact ⟨h.1.trans (by decide), h.2.1.trans (by decide),
    h.2.2.1.trans (by decide), h.2.2.2.trans (by decide)⟩

theorem palette_head_getD {p : List BlockState} (h : p.head? = some AIR) :
    p.getD 0 AIR = AIR := by
  cases p with
  | nil => simp at h
  | cons a l => simp at h; simpa using h

theorem palette_head_append {p : List BlockState} (s : List BlockState)
    (h : p.head? = some AIR) : (p ++ s).head? = some AIR := by
  cases p with
  | nil => simp at h
  | cons a l => simp at h ⊢; exact h

theorem setBlock_palette_head {r : Region} (h : r.palette.head? = some AIR)
    (x y z : Nat) (s : BlockState) :
    (r.setBlock x y z s).palette.head? = some AIR := by
  unfold Region.setBlock
  cases hidx : paletteIdx r.palette s with
  | some idx => exact h
  | none => exact palette_head_append _ h

theorem prune_palette_head {r : Region} (h : r.palette.head? = some AIR) :
    r.prune.palette.head? = some AIR := by
  unfold Region.prune Region.prunePalette
  have h0 : r.palette[0]? = some AIR := by
    rw [← List.head?_eq_getElem?]; exact h
  simp [h0]

theorem filterStep_head (fn : BlockState → BlockState)
    (l : List BlockState) (acc : List BlockState × List Nat)
    (h : acc.1.head? = some AIR) :
    (l.foldl (fun acc e =>
      match paletteIdx acc.1 (fn e) with
      | some j => (acc.1, acc.2 ++ [j])
      | none => (acc.1 ++ [fn e], acc.2 ++ [acc.1.length])) acc).1.head?
      = some AIR := by
  induction l generalizing acc with
  | nil => exact h
  | cons e l ih =>
    rw [List.foldl_cons]
    cases hidx : paletteIdx acc.1 (fn e) with
    | some j => exact ih _ (by simpa using h)
    | none => exact ih _ (by simpa using palette_head_append [fn e] h)

theorem filterStates_palette_head {r : Region} (h : r.palette.head? = some AIR)
    (fn : BlockState → BlockState) :
    (r.filterStates fn).palette.head? = some AIR := by
  unfold Region.filterStates
  exact prune_palette_head (filterStep_head fn r.palette ([AIR], []) rfl)

theorem applyOp_palette_head {r : Region} (h : r.palette.head? = some AIR)
    (op : RegionOp) : (r.applyOp op).palette.head? = some AIR := by
  cases op with
  | set x y z s => exact setBlock_palette_head h x y z s
  | replace o n => exact filterStates_palette_head h _
  | filter fn => exact filterStates_palette_head h fn
  | prune => exact prune_palette_head h

/-- C5: For every Region, palette index 0 holds `AIR` immediately after
construction and after every sequence of block writes, `replace`, `filter`
and `prune` operations; `AIR` is never removed from the palette. -/
theorem claim_C5_air_at_palette_index_zero (position size : Vec3)
    (ops : List RegionOp) :
    ((mkRegion position size).applyOps ops).palette.head? = some AIR ∧
    AIR ∈ ((mkRegion position size).applyOps ops).palette := by
  have hmain : ∀ (r : Region), r.palette.head? = some AIR →
      (r.applyOps ops).palette.head? = some AIR := by
    induction ops with
    | nil => intro r h; exact h
    | cons op ops ih =>
      intro r h
      exact ih _ (applyOp_palette_head h op)
  have h0 : (mkRegion position size).palette.head? = some AIR := rfl
  have h := hmain _ h0
  refine ⟨h, ?_⟩
  cases hp : ((mkRegion position size).applyOps ops).palette with
  | nil => rw [hp] at h; simp at h
  | cons a l => rw [hp] at h; simp at h; simp [hp, h]

/-- C6: For every DiscriminatingDictionary and every mutation (single
insert, bulk update, setdefault, delete, pop, popitem, clear), each
affected key/value pair is discriminated before any change; if the
discriminator rejects any pair, the operation fails with
DiscriminationError and the dictionary's contents are exactly what they
were before the call (all-or-nothing). -/
theorem claim_C6_discriminating_dictionary_atomic {K V : Type} [DecidableEq K]
    (d : DiscriminatingDictionary K V) (op : DictOp K V)
    (hrej : ∃ p ∈ d.affectedPairs op, (d.discriminator p.1 p.2).1 = false) :
    ∃ reason, d.applyOp op = (.error (.discrimination reason), d) := by
  obtain ⟨p, hp, hfalse⟩ := hrej
  cases op with
  | insert k v =>
    simp [DiscriminatingDictionary.affectedPairs] at hp
    subst hp
    refine ⟨(d.discriminator k v).2, ?_⟩
    simp only [DiscriminatingDictionary.applyOp, DiscriminatingDictionary.setItem]
    simp at hfalse
    simp [hfalse]
  | update ps =>
    have hfind : (ps.find? (fun p => !(d.discriminator p.1 p.2).1)).isSome := by
      rw [List.find?_isSome]
      exact ⟨p, hp, by simp [hfalse]⟩
    obtain ⟨q, hq⟩ := Option.isSome_iff_exists.mp hfind
    refine ⟨(d.discriminator q.1 q.2).2, ?_⟩
    simp [DiscriminatingDictionary.applyOp, DiscriminatingDictionary.update, hq]
  | setDefault k v =>
    cases hg : assocGet d.entries k with
    | some w =>
      simp [DiscriminatingDictionary.affectedPairs, hg] at hp
    | none =>
      simp [DiscriminatingDictionary.affectedPairs, hg] at hp
      subst hp
      refine ⟨(d.discriminator k v).2, ?_⟩
      simp at hfalse
      simp [DiscriminatingDictionary.applyOp, DiscriminatingDictionary.setDefault,
        hg, DiscriminatingDictionary.setItem, hfalse]
  | delete k =>
    cases hg : assocGet d.entries k with
    | none => simp [DiscriminatingDictionary.affectedPairs, hg] at hp
    | some w =>
      simp [DiscriminatingDictionary.affectedPairs, hg] at hp
      subst hp
      simp at hfalse
      exact ⟨(d.discriminator k w).2,
        by simp [DiscriminatingDictionary.applyOp, DiscriminatingDictionary.delete,
          hg, hfalse]⟩
  | pop k =>
    cases hg : assocGet d.entries k with
    | none => simp [DiscriminatingDictionary.affectedPairs, hg] at hp
    | some w =>
      simp [DiscriminatingDictionary.affectedPairs, hg] at hp
      subst hp
      simp at hfalse
      exact ⟨(d.discriminator k w).2,
        by simp [DiscriminatingDictionary.applyOp, DiscriminatingDictionary.delete,
          hg, hfalse]⟩
  | popItem =>
    cases hg : d.entries.getLast? with
    | none => simp [DiscriminatingDictionary.affectedPairs, hg] at hp
    | some q =>
      simp [DiscriminatingDictionary.affectedPairs, hg] at hp
      subst hp
      exact ⟨(d.discriminator p.1 p.2).2,
        by simp [DiscriminatingDictionary.applyOp, DiscriminatingDictionary.popItem,
          hg, hfalse]⟩
  | clear =>
    have hfind : (d.entries.find? (fun p => !(d.discriminator p.1 p.2).1)).isSome := by
      rw [List.find?_isSome]
      exact ⟨p, hp, by simp [hfalse]⟩
    obtain ⟨q, hq⟩ := Option.isSome_iff_exists.mp hfind
    refine ⟨(d.discriminator q.1 q.2).2, ?_⟩
    simp [DiscriminatingDictionary.applyOp, DiscriminatingDictionary.clear, hq]

/-- Witness for C6 at spec scenario S4: with discriminator `v ≥ 0`,
inserting `"-1" → -1` fails with a DiscriminationError and leaves the map
unchanged. -/
theorem claim_C6_discriminating_dictionary_atomic_witness :
    ∃ reason, dictS4.applyOp (DictOp.insert "-1" (-1))
      = (.error (.discrimination reason), dictS4) :=
  claim_C6_discriminating_dictionary_atomic dictS4 (DictOp.insert "-1" (-1))
    ⟨("-1", -1), by decide, by decide⟩

theorem mergeExtents_assoc (a b c : Extents) :
    mergeExtents a (mergeExtents b c) = mergeExtents (mergeExtents a b) c := by
  cases a; cases b; cases c
  simp [mergeExtents, Extents.mk.injEq]
  omega

theorem mergeExtents_merge_self (a b : Extents) :
    mergeExtents (mergeExtents a b) a = mergeExtents a b := by
  cases a; cases b
  simp [mergeExtents, Extents.mk.injEq]

theorem mergeExtents_self (a : Extents) : mergeExtents a a = a := by
  cases a
  simp [mergeExtents, Extents.mk.injEq]

theorem mergeExtents_absorb {e f : Extents} (h : mergeExtents e f = e)
    (a : Extents) : mergeExtents (mergeExtents a e) f = mergeExtents a e := by
  cases a; cases e; cases f
  simp [mergeExtents, Extents.mk.injEq] at h ⊢
  omega

theorem enclosing_append (l : List (String × Region)) (n : String) (r : Region) :
    enclosingExtents (l ++ [(n, r)])
      = some (mergeOpt (enclosingExtents l) r.extents) := by
  induction l with
  | nil => rfl
  | cons hd rest ih =>
    obtain ⟨m, q⟩ := hd
    rw [List.cons_append]
    unfold enclosingExtents
    rw [ih]
    cases hrest : enclosingExtents rest with
    | none => simp [mergeOpt, enclosingExtents, hrest]
    | some e =>
      simp only [mergeOpt, enclosingExtents, hrest]
      rw [mergeExtents_assoc]

theorem assocGet_mem_map {es : List (String × Region)} {name : String}
    {v : Region} (hg : assocGet es name = some v) (r : Region) :
    (name, r) ∈ es.map (fun kv => if kv.1 = name then (name, r) else kv) := by
  induction es with
  | nil => simp [assocGet] at hg
  | cons hd rest ih =>
    obtain ⟨k', w⟩ := hd
    by_cases hk : k' = name
    · simp [hk]
    · rw [assocGet, if_neg hk] at hg
      simp only [List.map_cons, List.mem_cons]
      exact Or.inr (ih hg)

theorem enclosing_mem_absorb {l : List (String × Region)} {n : String}
    {r : Region} (hmem : (n, r) ∈ l) :
    ∃ e, enclosingExtents l = some e ∧ mergeExtents e r.extents = e := by
  induction l with
  | nil => simp at hmem
  | cons hd rest ih =>
    obtain ⟨m, q⟩ := hd
    rcases List.mem_cons.mp hmem with hhd | htl
    · injection hhd with h1 h2
      subst h2
      cases hrest : enclosingExtents rest with
      | none =>
        exact ⟨r.extents, by simp [enclosingExtents, hrest],
          mergeExtents_self r.extents⟩
      | some e =>
        exact ⟨mergeExtents r.extents e, by simp [enclosingExtents, hrest],
          mergeExtents_merge_self r.extents e⟩
    · obtain ⟨e, henc, habs⟩ := ih htl
      refine ⟨mergeExtents q.extents e, by simp [enclosingExtents, henc], ?_⟩
      exact mergeExtents_absorb habs q.extents

theorem applyOp_cache {s : Schematic}
    (h : s.cachedExtents = enclosingExtents s.regions) (op : SchemOp) :
    (s.applyOp op).cachedExtents = enclosingExtents (s.applyOp op).regions := by
  cases op with
  | put name r =>
    show (s.putRegion name r).cachedExtents = enclosingExtents (s.putRegion name r).regions
    unfold Schematic.putRegion
    cases hg : assocGet s.regions name with
    | none =>
      simp only []
      rw [enclosing_append, h]
    | some v =>
      simp only []
      obtain ⟨e, henc, habs⟩ := enclosing_mem_absorb (assocGet_mem_map hg r)
      rw [henc]
      simp [mergeOpt, habs]
  | remove name =>
    show (s.removeRegion name).cachedExtents = enclosingExtents (s.removeRegion name).regions
    unfold Schematic.removeRegion
    cases hg : assocGet s.regions name with
    | none => exact h
    | some v => rfl

theorem schematic_cache_invariant (ops : List SchemOp) :
    ∀ s : Schematic, s.cachedExtents = enclosingExtents s.regions →
      (s.applyOps ops).cachedExtents = enclosingExtents (s.applyOps ops).regions := by
  induction ops with
  | nil => intro s h; exact h
  | cons op ops ih =>
    intro s h
    exact ih _ (applyOp_cache h op)

/-- C7: For every Schematic, `width` (and analogously `height` and
`length`) equals the x-extent (resp. y, z) of the bounding box enclosing
the union of all its regions' schematic-space extents, and equals 0 when
the schematic holds no regions; the value stays correct across every
addition, replacement and removal of a region. -/
theorem claim_C7_extent_rollup (ops : List SchemOp) :
    (Schematic.empty.applyOps ops).width
        = (match enclosingExtents (Schematic.empty.applyOps ops).regions with
           | none => 0
           | some e => e.maxx - e.minx + 1) ∧
    (Schematic.empty.applyOps ops).height
        = (match enclosingExtents (Schematic.empty.applyOps ops).regions with
           | none => 0
           | some e => e.maxy - e.miny + 1) ∧
    (Schematic.empty.applyOps ops).length
        = (match enclosingExtents (Schematic.empty.applyOps ops).regions with
           | none => 0
           | some e => e.maxz - e.minz + 1) ∧
    Schematic.empty.width = 0 ∧ Schematic.empty.height = 0 ∧
    Schematic.empty.length = 0 := by
  have hinv := schematic_cache_invariant ops Schematic.empty rfl
  refine ⟨?_, ?_, ?_, rfl, rfl, rfl⟩
  · unfold Schematic.width
    rw [hinv]
  · unfold Schematic.height
    rw [hinv]
  · unfold Schematic.length
    rw [hinv]

theorem decodeProps_encode (ps : List (String × String)) :
    decodeProps (ps.map (fun kv => (kv.1, NBT.str kv.2))) = some ps := by
  induction ps with
  | nil => rfl
  | cons p rest ih =>
    obtain ⟨k, v⟩ := p
    simp [decodeProps, ih]

theorem blockState_from_to (b : BlockState) :
    BlockState.from_nbt b.to_nbt = some b := by
  obtain ⟨id, props⟩ := b
  cases props with
  | nil => rfl
  | cons p ps =>
    have hne : ¬ ((p :: ps : List (String × String)) = []) := by simp
    simp only [BlockState.to_nbt, if_neg hne]
    simp only [BlockState.from_nbt, NBT.getStr?, NBT.lookup?, List.lookup]
    have hdp := decodeProps_encode (p :: ps)
    simp only [List.map_cons] at hdp
    simp [hdp]

theorem decodeBlockStates_encode (ps : List BlockState) :
    decodeBlockStates (ps.map BlockState.to_nbt) = some ps := by
  induction ps with
  | nil => rfl
  | cons p rest ih =>
    simp [decodeBlockStates, blockState_from_to, ih]

theorem decodeBlockTicks_encode (ts : List PendingBlockTick) :
    decodeBlockTicks (ts.map PendingBlockTick.to_nbt) = some ts := by
  induction ts with
  | nil => rfl
  | cons t rest ih =>
    simp [decodeBlockTicks, pendingBlockTick_from_to, ih]

theorem decodeFluidTicks_encode (ts : List PendingFluidTick) :
    decodeFluidTicks (ts.map PendingFluidTick.to_nbt) = some ts := by
  induction ts with
  | nil => rfl
  | cons t rest ih =>
    simp [decodeFluidTicks, pendingFluidTick_from_to, ih]

theorem vec3_from_to (p : Vec3) : vec3FromNbt (vec3ToNbt p) = some p := rfl

theorem packV7Word_cons (c : Nat) (rest : List Nat) (bits : Nat) :
    packV7Word (c :: rest) bits
      = packV7Word rest bits * 2 ^ bits + c % 2 ^ bits := rfl

theorem packV7Word_extract {bits : Nat} (hb : 0 < bits) (vs : List Nat)
    (hv : ∀ v ∈ vs, v < 2 ^ bits) {m : Nat} (hm : m < vs.length) :
    packV7Word vs bits / 2 ^ (m * bits) % 2 ^ bits = vs.getD m 0 := by
  induction vs generalizing m with
  | nil => simp at hm
  | cons c rest ih =>
    rw [packV7Word_cons]
    cases m with
    | zero =>
      have hc : c % 2 ^ bits = c := Nat.mod_eq_of_lt (hv c (by simp))
      rw [Nat.mul_comm (packV7Word rest bits) (2 ^ bits)]
      simp [Nat.mul_add_mod, hc]
    | succ m =>
      have hpow : (0:Nat) < 2 ^ bits := Nat.pos_pow_of_pos bits (by norm_num)
      have hdiv : (packV7Word rest bits * 2 ^ bits + c % 2 ^ bits)
          / 2 ^ ((m + 1) * bits)
          = packV7Word rest bits / 2 ^ (m * bits) := by
        rw [(by ring : (m + 1) * bits = bits + m * bits), Nat.pow_add,
          ← Nat.div_div_eq_div_mul]
        congr 1
        rw [Nat.mul_comm (packV7Word rest bits) (2 ^ bits),
          Nat.mul_add_div hpow]
        simp [Nat.div_eq_of_lt (Nat.mod_lt _ hpow)]
      rw [hdiv, ih (fun v hvv => hv v (by simp [hvv])) (by simpa using hm)]
      rfl

theorem range_map_getD (f : Nat → Nat) {n j : Nat} (h : j < n) :
    ((List.range n).map f).getD j 0 = f j := by
  rw [List.getD_eq_getElem?_getD, List.getElem?_map]
  simp [List.getElem?_range h]

theorem wordsGet_lt (ws : List Nat) (bits i : Nat) (hb : 0 < bits) :
    wordsGet ws bits i < 2 ^ bits := by
  have hm : lowMask bits < 2 ^ bits := by
    have : (0:Nat) < 2 ^ bits := Nat.pos_pow_of_pos bits (by norm_num)
    unfold lowMask
    omega
  unfold wordsGet
  by_cases hs : i * bits % 64 + bits ≤ 64 <;>
    simp only [hs, if_true, if_false] <;>
    exact lt_of_le_of_lt Nat.and_le_right hm

theorem unpackV7_lt (ws : List Nat) (bits i : Nat) :
    unpackV7 ws bits i < 2 ^ bits :=
  Nat.mod_lt _ (Nat.pos_pow_of_pos bits (by norm_num))

theorem unpackV7_packV7 {bits : Nat} (hb : 0 < bits) (hb64 : bits ≤ 64)
    (cells : List Nat) (hv : ∀ v ∈ cells, v < 2 ^ bits) {i : Nat}
    (hi : i < cells.length) :
    unpackV7 (packV7 cells bits) bits i = cells.getD i 0 := by
  have hcpw : 0 < 64 / bits := (Nat.one_le_div_iff hb).mpr hb64
  have hjm : 64 / bits * (i / (64 / bits)) + i % (64 / bits) = i :=
    Nat.div_add_mod i (64 / bits)
  have hX : i / (64 / bits) * (64 / bits) = 64 / bits * (i / (64 / bits)) :=
    Nat.mul_comm ..
  have hm : i % (64 / bits) < 64 / bits := Nat.mod_lt _ hcpw
  have hjW : i / (64 / bits) < (cells.length + 64 / bits - 1) / (64 / bits) := by
    rw [Nat.lt_iff_add_one_le, Nat.le_div_iff_mul_le hcpw]
    have hexp : (i / (64 / bits) + 1) * (64 / bits)
        = 64 / bits * (i / (64 / bits)) + 64 / bits := by ring
    omega
  simp only [unpackV7, packV7]
  rw [range_map_getD _ hjW]
  have hchunkm : i % (64 / bits)
      < ((cells.drop (i / (64 / bits) * (64 / bits))).take (64 / bits)).length := by
    rw [List.length_take, List.length_drop]
    exact Nat.lt_min.mpr ⟨hm, by omega⟩
  have hchunkv : ∀ v ∈ (cells.drop (i / (64 / bits) * (64 / bits))).take (64 / bits),
      v < 2 ^ bits :=
    fun v hvv => hv v (List.mem_of_mem_drop (List.mem_of_mem_take hvv))
  rw [packV7Word_extract hb _ hchunkv hchunkm]
  rw [List.getD_eq_getElem?_getD, List.getElem?_take, if_pos hm,
    List.getElem?_drop, ← List.getD_eq_getElem?_getD]
  congr 1
  omega

theorem natIdx_getElem {l : List Nat} {s m : Nat} (h : natIdx l s = some m) :
    l[m]? = some s := by
  induction l generalizing m with
  | nil => simp [natIdx] at h
  | cons b p ih =>
    rw [natIdx] at h
    by_cases hb : b = s
    · rw [if_pos hb] at h
      injection h with h
      subst h
      simp [hb]
    · rw [if_neg hb] at h
      cases hm : natIdx p s with
      | none => rw [hm] at h; simp at h
      | some m' =>
        rw [hm] at h
        simp at h
        subst h
        simpa using ih hm

theorem natIdx_lt_length {l : List Nat} {s m : Nat} (h : natIdx l s = some m) :
    m < l.length := by
  have hg := natIdx_getElem h
  by_contra hge
  rw [List.getElem?_eq_none_iff.mpr (by omega)] at hg
  simp at hg

theorem natIdx_mem {l : List Nat} {s : Nat} (h : s ∈ l) :
    ∃ m, natIdx l s = some m := by
  induction l with
  | nil => simp at h
  | cons b p ih =>
    by_cases hb : b = s
    · exact ⟨0, by rw [natIdx, if_pos hb]⟩
    · rcases List.mem_cons.mp h with hh | ht
      · exact absurd hh.symm hb
      · obtain ⟨m, hm⟩ := ih ht
        exact ⟨m + 1, by rw [natIdx, if_neg hb, hm]; rfl⟩

theorem clog2Fuel_eq {fuel n : Nat} (h : n ≤ fuel) :
    clog2Fuel fuel n = Nat.clog 2 n := by
  induction fuel generalizing n with
  | zero =>
    have hn : n = 0 := by omega
    subst hn
    simp [clog2Fuel]
  | succ fuel ih =>
    by_cases hn : n ≤ 1
    · have h01 : n = 0 ∨ n = 1 := by omega
      rw [clog2Fuel, if_pos hn]
      rcases h01 with rfl | rfl
      · simp
      · exact (Nat.clog_one_right 2).symm
    · rw [clog2Fuel, if_neg hn]
      rw [Nat.clog_of_two_le (b := 2) (by norm_num) (show 2 ≤ n by omega)]
      rw [show n + 2 - 1 = n + 1 by omega]
      rw [ih (show (n + 1) / 2 ≤ fuel by omega)]

theorem requiredBits_eq (n : Nat) : requiredBits n = max 2 (Nat.clog 2 n) := by
  unfold requiredBits
  rw [clog2Fuel_eq (le_refl n)]

theorem le_pow_requiredBits (n : Nat) : n ≤ 2 ^ requiredBits n := by
  rw [requiredBits_eq]
  exact le_trans (Nat.le_pow_clog (by norm_num) n)
    (Nat.pow_le_pow_right (by norm_num) (le_max_right 2 (Nat.clog 2 n)))

theorem requiredBits_pos (n : Nat) : 0 < requiredBits n :=
  lt_of_lt_of_le (by norm_num) (le_max_left 2 (clog2Fuel n n))

theorem requiredBits_mono {m n : Nat} (h : m ≤ n) :
    requiredBits m ≤ requiredBits n := by
  rw [requiredBits_eq, requiredBits_eq]
  exact max_le_max (le_refl 2) (Nat.clog_mono_right 2 h)

theorem getD_map_lt (f : Nat → Nat) {l : List Nat} {i : Nat}
    (h : i < l.length) : (l.map f).getD i 0 = f (l.getD i 0) := by
  rw [List.getD_eq_getElem?_getD, List.getElem?_map,
    List.getD_eq_getElem?_getD]
  cases hh : l[i]? with
  | none => rw [List.getElem?_eq_none_iff] at hh; omega
  | some a => rfl

theorem LitematicaBitArray.writeFrom_array_length (a : LitematicaBitArray)
    (start : Nat) (vs : List Nat) :
    (a.writeFrom start vs).array.length = a.array.length := by
  induction vs generalizing a start with
  | nil => rfl
  | cons v vs ih =>
    rw [LitematicaBitArray.writeFrom, ih]
    exact wordsSet_length ..

theorem usedIndices_length {r : Region} : r.usedIndices.length = r.blocks.size := by
  unfold Region.usedIndices LitematicaBitArray.cells
  simp

theorem usedIndices_getD {r : Region} {i : Nat} (hi : i < r.blocks.size) :
    r.usedIndices.getD i 0 = r.blocks.getCell i :=
  range_map_getD _ hi

theorem getCell_mem_usedIndices {r : Region} {i : Nat} (hi : i < r.blocks.size) :
    r.blocks.getCell i ∈ r.usedIndices := by
  unfold Region.usedIndices LitematicaBitArray.cells
  exact List.mem_map.mpr ⟨i, List.mem_range.mpr hi, rfl⟩

theorem pruneRemap_lt {r : Region} {c : Nat} (hmem : c ∈ r.usedIndices)
    (hc : c < r.palette.length) :
    r.pruneRemap c < r.prunePalette.length := by
  unfold Region.pruneRemap Region.prunePalette
  by_cases h0 : c = 0
  · simp [h0]
  · rw [if_neg h0]
    have hkeep : c ∈ r.pruneKeep := by
      unfold Region.pruneKeep
      rw [List.mem_filter]
      exact ⟨List.mem_range.mpr hc, by simp [h0, hmem]⟩
    obtain ⟨m, hm⟩ := natIdx_mem hkeep
    have hlt := natIdx_lt_length hm
    rw [hm]
    simpa using hlt

theorem pruneRemap_getD {r : Region} {c : Nat} (hmem : c ∈ r.usedIndices)
    (hc : c < r.palette.length) :
    r.prunePalette.getD (r.pruneRemap c) AIR = r.palette.getD c AIR := by
  unfold Region.pruneRemap Region.prunePalette
  by_cases h0 : c = 0
  · simp [h0]
  · rw [if_neg h0]
    have hkeep : c ∈ r.pruneKeep := by
      unfold Region.pruneKeep
      rw [List.mem_filter]
      exact ⟨List.mem_range.mpr hc, by simp [h0, hmem]⟩
    obtain ⟨m, hm⟩ := natIdx_mem hkeep
    rw [hm]
    have hgetm : r.pruneKeep[m]? = some c := natIdx_getElem hm
    simp only [Option.map_some', Option.getD_some, List.getD_cons_succ]
    rw [List.getD_eq_getElem?_getD, List.getElem?_map, hgetm]
    rfl

theorem prunePalette_length_le {r : Region} (hpal : 0 < r.palette.length) :
    r.prunePalette.length ≤ r.palette.length := by
  unfold Region.prunePalette Region.pruneKeep
  simp only [List.length_cons, List.length_map]
  have h0mem : (0 : Nat) ∈ List.range r.palette.length :=
    List.mem_range.mpr hpal
  have hlt : ((List.range r.palette.length).filter
      (fun j => decide (j ≠ 0 ∧ j ∈ r.usedIndices))).length
      < (List.range r.palette.length).length := by
    apply List.length_filter_lt_length_iff_exists.mpr
    exact ⟨0, h0mem, by simp⟩
  simp only [List.length_range] at hlt
  omega

theorem prune_position (r : Region) : r.prune.position = r.position := rfl

theorem prune_size (r : Region) : r.prune.size = r.size := rfl

theorem prune_entities (r : Region) : r.prune.entities = r.entities := rfl

theorem prune_tile_entities (r : Region) :
    r.prune.tile_entities = r.tile_entities := rfl

theorem prune_block_ticks (r : Region) :
    r.prune.block_ticks = r.block_ticks := rfl

theorem prune_fluid_ticks (r : Region) :
    r.prune.fluid_ticks = r.fluid_ticks := rfl

theorem prune_palette_eq (r : Region) : r.prune.palette = r.prunePalette := rfl

theorem prune_blocks_size (r : Region) :
    r.prune.blocks.size = r.blocks.size :=
  LitematicaBitArray.writeFrom_size
    (LitematicaBitArray.init r.blocks.size (requiredBits r.prunePalette.length))
    0 (r.usedIndices.map r.pruneRemap)

theorem prune_blocks_nbits (r : Region) :
    r.prune.blocks.nbits = requiredBits r.prunePalette.length :=
  LitematicaBitArray.writeFrom_nbits
    (LitematicaBitArray.init r.blocks.size (requiredBits r.prunePalette.length))
    0 (r.usedIndices.map r.pruneRemap)

theorem palette_length_pos {r : Region} (hhead : r.palette.head? = some AIR) :
    0 < r.palette.length := by
  cases hp : r.palette with
  | nil => rw [hp] at hhead; simp at hhead
  | cons a l => simp

theorem prune_cell_values {r : Region} (hr : r.WFR) :
    ∀ v ∈ r.usedIndices.map r.pruneRemap,
      v < 2 ^ requiredBits r.prunePalette.length := by
  intro v hv
  obtain ⟨c, hcmem, hcv⟩ := List.mem_map.mp hv
  subst hcv
  have hc : c < r.palette.length := hr.2.2.2.2.2.2.2.2.2 c hcmem
  exact lt_of_lt_of_le (pruneRemap_lt hcmem hc)
    (le_pow_requiredBits r.prunePalette.length)

theorem prune_getCell {r : Region} (hr : r.WFR) {i : Nat}
    (hi : i < r.blocks.size) :
    r.prune.blocks.getCell i = r.pruneRemap (r.blocks.getCell i) := by
  have hpal : 0 < r.palette.length := palette_length_pos hr.2.2.2.1
  have hb64' : requiredBits r.prunePalette.length ≤ 64 :=
    le_trans (requiredBits_mono (prunePalette_length_le hpal))
      (hr.2.2.2.2.2.1 ▸ hr.2.2.2.2.2.2.1)
  have hlenv : (r.usedIndices.map r.pruneRemap).length = r.blocks.size := by
    rw [List.length_map, usedIndices_length]
  have hival : i < (r.usedIndices.map r.pruneRemap).length := by omega
  have h := writeSeq_getCell (N := r.blocks.size)
    (by omega) hb64' (requiredBits_pos _) (prune_cell_values hr) hival
  rw [show r.prune.blocks
      = (LitematicaBitArray.init r.blocks.size
          (requiredBits r.prunePalette.length)).writeSeq
        (r.usedIndices.map r.pruneRemap) from rfl]
  rw [h, getD_map_lt _ (by rw [usedIndices_length]; omega), usedIndices_getD hi]

theorem prune_WFR {r : Region} (hr : r.WFR) : r.prune.WFR := by
  obtain ⟨hx, hy, hz, hhead, hsz, hnb, hb64, hwords, hlen, hcells⟩ := hr
  have hr' : r.WFR :=
    ⟨hx, hy, hz, hhead, hsz, hnb, hb64, hwords, hlen, hcells⟩
  have hpal : 0 < r.palette.length := palette_length_pos hhead
  have hb64' : requiredBits r.prunePalette.length ≤ 64 :=
    le_trans (requiredBits_mono (prunePalette_length_le hpal)) (hnb ▸ hb64)
  have hwf := LitematicaBitArray.writeFrom_WF
    (LitematicaBitArray.init_WF r.blocks.size
      (requiredBits r.prunePalette.length)) hb64' 0
    (r.usedIndices.map r.pruneRemap)
  refine ⟨hx, hy, hz, prune_palette_head hhead, ?_, ?_, ?_, ?_, ?_, ?_⟩
  · rw [prune_blocks_size]
    exact hsz
  · rw [prune_blocks_nbits, prune_palette_eq]
  · rw [prune_palette_eq]
    exact hb64'
  · exact hwf.1
  · show ((LitematicaBitArray.init r.blocks.size
        (requiredBits r.prunePalette.length)).writeSeq
        (r.usedIndices.map r.pruneRemap)).array.length
      = (r.prune.blocks.size * r.prune.blocks.nbits + 63) / 64
    rw [prune_blocks_size, prune_blocks_nbits]
    unfold LitematicaBitArray.writeSeq
    rw [LitematicaBitArray.writeFrom_array_length]
    simp [LitematicaBitArray.init]
  · intro c hcmem
    unfold LitematicaBitArray.cells at hcmem
    obtain ⟨i, hirange, hival⟩ := List.mem_map.mp hcmem
    rw [prune_blocks_size] at hirange
    have hi : i < r.blocks.size := List.mem_range.mp hirange
    subst hival
    rw [prune_getCell hr' hi, prune_palette_eq]
    exact pruneRemap_lt (getCell_mem_usedIndices hi)
      (hcells _ (getCell_mem_usedIndices hi))

theorem linearIndex_lt {r : Region} {x y z : Nat} (hx : x < r.lenX)
    (hy : y < r.lenY) (hz : z < r.lenZ) :
    r.linearIndex x y z < r.volume := by
  unfold Region.linearIndex Region.volume
  have h1 : (z + 1) * r.lenX ≤ r.lenZ * r.lenX :=
    Nat.mul_le_mul_right _ (by omega)
  have h2 : (y + 1) * (r.lenX * r.lenZ) ≤ r.lenY * (r.lenX * r.lenZ) :=
    Nat.mul_le_mul_right _ (by omega)
  rw [Nat.add_mul, Nat.one_mul] at h1 h2
  have hcomm : r.lenZ * r.lenX = r.lenX * r.lenZ := Nat.mul_comm ..
  have hvol : r.lenX * r.lenY * r.lenZ = r.lenY * (r.lenX * r.lenZ) := by ring
  omega

theorem prune_getBlock {r : Region} (hr : r.WFR) {x y z : Nat}
    (hx : x < r.lenX) (hy : y < r.lenY) (hz : z < r.lenZ) :
    r.prune.getBlock x y z = r.getBlock x y z := by
  have hi : r.linearIndex x y z < r.blocks.size := by
    rw [hr.2.2.2.2.1]
    exact linearIndex_lt hx hy hz
  have hmem := getCell_mem_usedIndices hi
  unfold Region.getBlock Region.getBlockIdx
  rw [show r.prune.linearIndex x y z = r.linearIndex x y z from rfl]
  rw [show r.prune.blocks.getCell (r.linearIndex x y z)
      = r.pruneRemap (r.blocks.getCell (r.linearIndex x y z)) from
    prune_getCell hr hi]
  rw [show r.prune.palette = r.prunePalette from rfl]
  exact pruneRemap_getD hmem (hr.2.2.2.2.2.2.2.2.2 _ hmem)

theorem packV7_length (cells : List Nat) (bits : Nat) :
    (packV7 cells bits).length
      = (cells.length + 64 / bits - 1) / (64 / bits) := by
  simp [packV7]

theorem cells_length (a : LitematicaBitArray) : a.cells.length = a.size := by
  simp [LitematicaBitArray.cells]

theorem cells_getD {a : LitematicaBitArray} {i : Nat} (hi : i < a.size) :
    a.cells.getD i 0 = a.getCell i := range_map_getD _ hi

theorem cells_lt {a : LitematicaBitArray} (hb : 0 < a.nbits) :
    ∀ v ∈ a.cells, v < 2 ^ a.nbits := by
  intro v hv
  obtain ⟨i, hmem, hval⟩ := List.mem_map.mp hv
  subst hval
  exact wordsGet_lt a.array a.nbits i hb

theorem region_from_to {r : Region} (hr : r.WFR) (v : Int) :
    ∃ t : Region, Region.from_nbt v (Region.to_nbt v r) = .ok t ∧
      t.position = r.position ∧ t.size = r.size ∧ t.palette = r.palette ∧
      t.entities = r.entities ∧ t.tile_entities = r.tile_entities ∧
      t.block_ticks = r.block_ticks ∧ t.fluid_ticks = r.fluid_ticks ∧
      (∀ i, i < r.blocks.size → t.blocks.getCell i = r.blocks.getCell i) := by
  obtain ⟨hx, hy, hz, hhead, hsz, hnb, hb64, hwords, hlen, hcells⟩ := hr
  have hbits : requiredBits r.palette.length = r.blocks.nbits := hnb.symm
  have hbpos : 0 < r.blocks.nbits := hbits ▸ requiredBits_pos _
  have hb64' : r.blocks.nbits ≤ 64 := hnb ▸ hb64
  unfold Region.from_nbt
  rw [show (Region.to_nbt v r).lookup? "Position"
      = some (vec3ToNbt r.position) from rfl]
  rw [show (Region.to_nbt v r).lookup? "Size"
      = some (vec3ToNbt r.size) from rfl]
  rw [show (Region.to_nbt v r).getList? "BlockStatePalette"
      = some (r.palette.map BlockState.to_nbt) from rfl]
  rw [show (Region.to_nbt v r).getList? "Entities"
      = some r.entities from rfl]
  rw [show (Region.to_nbt v r).getList? "TileEntities"
      = some r.tile_entities from rfl]
  rw [show (Region.to_nbt v r).getList? "PendingBlockTicks"
      = some (r.block_ticks.map PendingBlockTick.to_nbt) from rfl]
  rw [show (Region.to_nbt v r).getList? "PendingFluidTicks"
      = some (r.fluid_ticks.map PendingFluidTick.to_nbt) from rfl]
  rw [show (Region.to_nbt v r).getLongArray? "BlockStates"
      = some (if v = 7 then packV7 r.blocks.cells r.blocks.nbits
              else r.blocks.array) from rfl]
  simp only [req, bind, Except.bind, vec3_from_to, decodeBlockStates_encode,
    decodeBlockTicks_encode, decodeFluidTicks_encode]
  rw [if_neg (by simp [hx, hy, hz])]
  have hvolN : r.size.x.natAbs * r.size.y.natAbs * r.size.z.natAbs
      = r.blocks.size := by
    rw [hsz]; rfl
  by_cases hv7 : v = 7
  · rw [if_pos hv7, if_pos hv7]
    have hchk : (packV7 r.blocks.cells r.blocks.nbits).length
        = (r.size.x.natAbs * r.size.y.natAbs * r.size.z.natAbs
            + 64 / requiredBits r.palette.length - 1)
          / (64 / requiredBits r.palette.length) := by
      rw [packV7_length, cells_length, hvolN, hbits]
    rw [if_pos hchk]
    simp only [bind, Except.bind, pure, Except.pure]
    refine ⟨_, rfl, rfl, rfl, rfl, rfl, rfl, rfl, rfl, ?_⟩
    intro i hi
    have hival : i < ((List.range (r.size.x.natAbs * r.size.y.natAbs
        * r.size.z.natAbs)).map
        (unpackV7 (packV7 r.blocks.cells r.blocks.nbits)
          (requiredBits r.palette.length))).length := by
      rw [List.length_map, List.length_range, hvolN]
      exact hi
    have h := writeSeq_getCell
      (N := r.size.x.natAbs * r.size.y.natAbs * r.size.z.natAbs)
      (by rw [List.length_map, List.length_range]) (hbits ▸ hb64')
      (hbits ▸ hbpos)
      (by
        intro w hw
        obtain ⟨j, hjmem, hjval⟩ := List.mem_map.mp hw
        subst hjval
        exact unpackV7_lt _ _ _) hival
    rw [h, range_map_getD _ (by omega : i < r.size.x.natAbs * r.size.y.natAbs
      * r.size.z.natAbs)]
    rw [hbits]
    rw [unpackV7_packV7 hbpos hb64' r.blocks.cells (cells_lt hbpos)
      (by rw [cells_length]; exact hi)]
    exact cells_getD hi
  · rw [if_neg hv7, if_neg hv7]
    have hchk : r.blocks.array.length
        = (r.size.x.natAbs * r.size.y.natAbs * r.size.z.natAbs
            * requiredBits r.palette.length + 63) / 64 := by
      rw [hvolN, hbits]
      exact hlen
    rw [if_pos hchk]
    simp only [bind, Except.bind, pure, Except.pure]
    refine ⟨_, rfl, rfl, rfl, rfl, rfl, rfl, rfl, rfl, ?_⟩
    intro i hi
    show wordsGet r.blocks.array (requiredBits r.palette.length) i
      = r.blocks.getCell i
    rw [hbits]
    rfl

theorem decode_prune_getBlock {r t : Region} (hwf : r.WFR)
    (hsize : t.size = r.prune.size)
    (hpal : t.palette = r.prune.palette)
    (hcell : ∀ i, i < r.prune.blocks.size →
      t.blocks.getCell i = r.prune.blocks.getCell i)
    {x y z : Nat} (hx : x < r.lenX) (hy : y < r.lenY) (hz : z < r.lenZ) :
    t.getBlock x y z = r.getBlock x y z := by
  rw [← prune_getBlock hwf hx hy hz]
  unfold Region.getBlock Region.getBlockIdx
  have hlin : t.linearIndex x y z = r.prune.linearIndex x y z := by
    unfold Region.linearIndex Region.lenX Region.lenZ
    rw [hsize]
  have hbound : r.prune.linearIndex x y z < r.prune.blocks.size := by
    rw [prune_blocks_size, hwf.2.2.2.2.1]
    exact linearIndex_lt hx hy hz
  rw [hlin, hpal, hcell _ hbound]

theorem decodeRegions_prune_encode (v : Int) (l : List (String × Region))
    (hwf : ∀ kv ∈ l, Region.WFR kv.2) :
    ∃ rs, decodeRegions v
        ((l.map (fun kv => (kv.1, kv.2.prune))).map
          (fun kv => (kv.1, Region.to_nbt v kv.2))) = .ok rs ∧
      List.Forall₂ RegionEntryAgrees rs l := by
  induction l with
  | nil => exact ⟨[], rfl, List.Forall₂.nil⟩
  | cons hd rest ih =>
    obtain ⟨n, r⟩ := hd
    have hwfr : r.WFR := hwf (n, r) (by simp)
    have hwfp : r.prune.WFR := prune_WFR hwfr
    obtain ⟨t, hok, hpos, hsize, hpal, hent, htile, hbt, hft, hcell⟩ :=
      region_from_to hwfp v
    obtain ⟨rs, hok', hF⟩ := ih (fun kv hkv => hwf kv (by simp [hkv]))
    refine ⟨(n, t) :: rs, ?_, ?_⟩
    · simp only [List.map_cons, decodeRegions]
      rw [hok]
      simp only [bind, Except.bind]
      rw [hok']
      rfl
    · refine List.Forall₂.cons ⟨rfl, ?_, ?_, ?_, ?_, ?_, ?_, ?_⟩ hF
      · rw [hpos, prune_position]
      · rw [hsize, prune_size]
      · rw [hent, prune_entities]
      · rw [htile, prune_tile_entities]
      · rw [hbt, prune_block_ticks]
      · rw [hft, prune_fluid_ticks]
      · intro x y z hx hy hz
        exact decode_prune_getBlock hwfr hsize hpal hcell hx hy hz

theorem save_nbt_version (s : Schematic) :
    s.save_nbt.getNum? "Version" = some s.lm_version := rfl

theorem save_nbt_mcdv (s : Schematic) :
    s.save_nbt.getNum? "MinecraftDataVersion" = some s.mc_data_version := by
  unfold Schematic.save_nbt
  cases s.lm_subversion <;> rfl

theorem save_nbt_subversion (s : Schematic) :
    s.save_nbt.getNum? "SubVersion" = s.lm_subversion := by
  unfold Schematic.save_nbt
  cases s.lm_subversion <;> rfl

theorem save_nbt_meta_getters (s : Schematic) :
    ∃ m, s.save_nbt.lookup? "Metadata" = some m ∧
      m.getStr? "Name" = some s.name ∧
      m.getStr? "Author" = some s.author ∧
      m.getStr? "Description" = some s.description := by
  unfold Schematic.save_nbt
  cases s.lm_subversion <;> exact ⟨_, rfl, rfl, rfl, rfl⟩

theorem save_nbt_regions (s : Schematic) :
    s.save_nbt.lookup? "Regions"
      = some (.compound ((s.regions.map (fun kv => (kv.1, kv.2.prune))).map
          (fun kv => (kv.1, Region.to_nbt s.lm_version kv.2)))) := by
  unfold Schematic.save_nbt
  cases s.lm_subversion <;> rfl

/-- C1: For every well-formed Schematic `S`, loading the file produced by
saving `S` yields a Schematic equal to `S` in its metadata, its region
names, each region's origin and size, the BlockState at every position of
every region, the entities (in list order, NBT-equal), the tile entities,
the block and fluid ticks, and the `lm_version`.  Gzip and file I/O are
the out-of-scope external collaborators, so save and load are related at
the NBT-tree level: decoding the saved tree. -/
theorem claim_C1_save_load_identity (s : Schematic)
    (hv : s.lm_version = 6 ∨ s.lm_version = 7)
    (hwf : ∀ kv ∈ s.regions, Region.WFR kv.2) :
    ∃ t, Schematic.from_nbt s.save_nbt = .ok t ∧ SaveLoadAgrees t s := by
  obtain ⟨m, hmeta, hname, hauthor, hdesc⟩ := save_nbt_meta_getters s
  obtain ⟨rs, hok, hF⟩ := decodeRegions_prune_encode s.lm_version s.regions hwf
  have hcond : ¬ (¬ s.lm_version = 6 ∧ ¬ s.lm_version = 7) := by
    rcases hv with h | h <;> simp [h]
  simp only [Schematic.from_nbt, save_nbt_version, save_nbt_mcdv,
    save_nbt_subversion, hmeta, hname, hauthor, hdesc, save_nbt_regions,
    hok, req, bind, Except.bind, pure, Except.pure, if_neg hcond]
  refine ⟨_, rfl, ?_⟩
  unfold SaveLoadAgrees
  exact ⟨rfl, rfl, rfl, rfl, rfl, rfl, hF⟩

/-- Witness for C1 at a concrete schematic in the spirit of scenario S5:
one 2×2×2 region holding stone at the origin, saved and reloaded as
format version 6. -/
theorem claim_C1_save_load_identity_witness :
    ∃ t, Schematic.from_nbt schematicS5.save_nbt = .ok t ∧
      SaveLoadAgrees t schematicS5 :=
  claim_C1_save_load_identity schematicS5 (Or.inl rfl)
    (by
      intro kv hkv
      simp only [schematicS5, List.mem_singleton] at hkv
      subst hkv
      unfold Region.WFR WordsWF
      exact ⟨by decide, by decide, by decide, by decide, by decide, by decide,
        by decide, by decide, by decide, by decide⟩)

/-- C8: For every NBT root whose Version tag is any integer other than 6
or 7 (for example 4), decoding via `Schematic.from_nbt` fails with
`CorruptedSchematic` whose message contains
`"Unsupported Litematica version"` together with the offending version
number. -/
theorem claim_C8_unsupported_version (t : NBT) (v : Int)
    (hv : t.getNum? "Version" = some v) (h6 : v ≠ 6) (h7 : v ≠ 7) :
    Schematic.from_nbt t
      = .error ⟨"Unsupported Litematica version: " ++ toString v⟩ ∧
    (∃ pre post, "Unsupported Litematica version: " ++ toString v
        = pre ++ "Unsupported Litematica version" ++ post) ∧
    (∃ pre post, "Unsupported Litematica version: " ++ toString v
        = pre ++ toString v ++ post) := by
  refine ⟨?_, ⟨"", ": " ++ toString v, ?_⟩,
    ⟨"Unsupported Litematica version: ", "", ?_⟩⟩
  · unfold Schematic.from_nbt req
    rw [hv]
    simp only [bind, Except.bind, h6, h7]
    simp [h6, h7]
  · rw [String.append_assoc]
    rfl
  · rw [String.append_assoc, String.append_empty]

/-- Witness for C8 at the test input of
`test_unsupported_version_raises_error`: a root with `Version=4` decodes
to the error `Unsupported Litematica version: 4`. -/
theorem claim_C8_unsupported_version_witness :
    Schematic.from_nbt unsupportedNBT
      = .error ⟨"Unsupported Litematica version: 4"⟩ := by
  have h := (claim_C8_unsupported_version unsupportedNBT 4 rfl
    (by decide) (by decide)).1
  rw [h]
  rfl

end Litemapy
